import Mathlib

/-!
Verification of the batch-conversion core of `dolphin-audio-converter.py`
(`convert_files` and its helpers) against its natural-language specification.

Modelling conventions, stated once here:

* Python floats are modelled as exact rationals (`ℚ`) in the batch model.
  The one place where IEEE-754 double rounding is observable — the slice
  arithmetic `int(idx / total * 100)` on line 400/401 — is modelled
  faithfully by a separate double-rounding model (`toDouble`, `sliceStartPy`
  below), used to compare the float behaviour with the exact floor formula.
* `int(...)` on a float truncates toward zero; `pyInt` mirrors that.
* The external world of one batch run is an environment: for each task, the
  existence of its input file, the outcome of the lossy-warning dialog, the
  probed duration, the sequence of poll-tick reads of the progress file
  (`out_time_ms` records, line 430-448), the encoder's exit code and its
  decoded stderr text; plus one oracle `alv : ℕ → Bool` giving the aliveness
  answer of the n-th `pbar_set` call (qdbus exit status, line 285-303).
  When no progress dialog or qdbus binary exists, `pbar_set` always answers
  alive; that situation is the oracle constantly `true`.
* Observable actions are reified as events (`Ev`): values pushed through
  `pbar_set`, creation/removal of the per-task progress file, spawning and
  killing of the encoder process, removal of a partial output file, and
  closing of the progress dialog.
* Paths are modelled by their final name component (`List Char`); all the
  path operations used by the program (`with_suffix`, `with_stem`) keep the
  parent directory, so name equality decides path equality.
-/

/-- Python `int(q)` on a nonnegative-or-negative rational: truncation toward
zero (`int()` applied to a float value, lines 400, 401, 439). -/
def pyInt (q : ℚ) : ℤ := if 0 ≤ q then ⌊q⌋ else -⌊-q⌋

/-- Line 400: `slice_start = int(idx / total * 100)`, with the float division
and multiplication idealised to exact rational arithmetic.  Line 401 computes
`slice_end` as the same expression at `idx + 1`, i.e. `sliceStart (i+1) N`. -/
def sliceStart (i N : ℕ) : ℤ := pyInt ((i : ℚ) / (N : ℚ) * 100)

/-- Line 437-438: `file_pct = min(1.0, us / 1e6 / duration)`. -/
def filePct (us : ℕ) (d : ℚ) : ℚ := min 1 ((us : ℚ) / 1000000 / d)

/-- Line 439: `overall = slice_start + int(file_pct * (slice_end - slice_start))`. -/
def overallPct (sS sE : ℤ) (us : ℕ) (d : ℚ) : ℤ :=
  sS + pyInt (filePct us d * ((sE - sS : ℤ) : ℚ))

/-- Observable events of one batch run. -/
inductive Ev where
  | setVal (v : ℤ)   -- `pbar_set(handle, v, …)` (lines 403, 442, 480)
  | mkProg (i : ℕ)   -- `tempfile.mkstemp` for task i (line 405)
  | rmProg (i : ℕ)   -- `os.unlink(prog_path)` for task i (line 452)
  | spawn (i : ℕ)    -- `subprocess.Popen` of the encoder for task i (line 426)
  | kill (i : ℕ)     -- `proc.kill()` for task i (line 444)
  | rmOut (i : ℕ)    -- `output_path.unlink()` for task i (lines 458, 475)
  | close            -- `pbar_close(handle)` (lines 461, 482)
  deriving DecidableEq, Repr

/-- Environment of one task: everything the external world decides. -/
structure TaskEnv where
  name : List Char          -- final path component of the input file
  present : Bool            -- `input_path.exists()` (line 379)
  accept : Bool             -- `warn_if_lossy(...)` verdict (line 395)
  duration : Option ℚ       -- `get_duration(filepath)` (line 408)
  polls : List (Option ℕ)   -- per poll tick: last `out_time_ms` match, if any
  exitCode : ℤ              -- `proc.returncode` when the process exits itself
  stderr : List Char        -- decoded stderr text of the encoder
  deriving DecidableEq, Repr

/-- Terminal disposition of one task inside the batch loop. -/
inductive Outcome where
  | missing                     -- input file absent: error, `continue` (line 380-381)
  | skipped                     -- lossy warning declined: `continue` (line 396)
  | cancelled                   -- dialog reported dead mid-task (lines 442-446)
  | failed (msg : List Char)    -- non-zero exit code (lines 469-477)
  | ok                          -- exit code 0 (lines 478-480)
  deriving DecidableEq, Repr

/-- State returned by the poll loop. -/
structure PollState where
  evs : List Ev
  last : ℤ
  calls : ℕ
  cancelled : Bool
  deriving DecidableEq, Repr

/-- Lines 429-448: the poll loop of one running task.  Each element of
`polls` is one tick on which `proc.poll()` was still `None`; when the list is
exhausted the process has exited by itself.  `last` is `last_pct`, `c` the
index of the next `pbar_set` call in the whole run. -/
def pollLoop (alv : ℕ → Bool) (i : ℕ) (sS sE : ℤ) (dur : Option ℚ) :
    List (Option ℕ) → ℤ → ℕ → PollState
  | [], last, c => ⟨[], last, c, false⟩
  | p :: rest, last, c =>
    match p, dur with
    | some us, some d =>
      -- line 436: `if matches and duration and duration > 0:`
      if 0 < d then
        let ov := overallPct sS sE us d
        -- line 440: `if overall > last_pct:`
        if last < ov then
          if alv c then
            let s := pollLoop alv i sS sE dur rest ov (c + 1)
            ⟨Ev.setVal ov :: s.evs, s.last, s.calls, s.cancelled⟩
          else
            -- lines 443-446: kill, set cancelled, break
            ⟨[Ev.setVal ov, Ev.kill i], ov, c + 1, true⟩
        else pollLoop alv i sS sE dur rest last c
      else pollLoop alv i sS sE dur rest last c
    | _, _ => pollLoop alv i sS sE dur rest last c

/-- Line 471-472: the error entry recorded for a failed task:
`f"{input_path.name}:\n{stderr_bytes.decode(errors='replace')[:400]}"`.
Note `[:400]` truncates to 400 characters of the decoded text. -/
def failMsg (t : TaskEnv) : List Char := t.name ++ ':' :: '\n' :: t.stderr.take 400

/-- Line 380: `errors.append(f"File not found: {filepath}")`. -/
def missingMsg (t : TaskEnv) : List Char := "File not found: ".data ++ t.name

/-- Result of running one task. -/
structure TaskResult where
  evs : List Ev
  calls : ℕ
  out : Outcome
  deriving DecidableEq, Repr

/-- Lines 378-480: one iteration of the `for idx, filepath in enumerate(files)`
loop, excluding the controller bookkeeping (`errors`, `done`, stopping).
`N` is `total`, `i` is `idx`, `c` the index of the next `pbar_set` call. -/
def runTask (alv : ℕ → Bool) (N i : ℕ) (t : TaskEnv) (c : ℕ) : TaskResult :=
  if t.present = false then ⟨[], c, .missing⟩
  else if t.accept = false then ⟨[], c, .skipped⟩
  else
    let sS := sliceStart i N
    let sE := sliceStart (i + 1) N
    -- line 403 `pbar_set(handle, slice_start, …)` (answer ignored),
    -- line 405 mkstemp, line 426 Popen, then the poll loop
    let s := pollLoop alv i sS sE t.duration t.polls sS (c + 1)
    if s.cancelled then
      -- lines 456-467: unlink output, close the dialog, return
      ⟨Ev.setVal sS :: Ev.mkProg i :: Ev.spawn i ::
        (s.evs ++ [Ev.rmProg i, Ev.rmOut i, Ev.close]), s.calls, .cancelled⟩
    else if t.exitCode ≠ 0 then
      -- lines 469-477: record error, unlink output
      ⟨Ev.setVal sS :: Ev.mkProg i :: Ev.spawn i ::
        (s.evs ++ [Ev.rmProg i, Ev.rmOut i]), s.calls, .failed (failMsg t)⟩
    else
      -- lines 478-480: done += 1, push slice_end (answer ignored)
      ⟨Ev.setVal sS :: Ev.mkProg i :: Ev.spawn i ::
        (s.evs ++ [Ev.rmProg i, Ev.setVal sE]), s.calls + 1, .ok⟩

/-- Controller state after processing a suffix of the task list. -/
structure GoState where
  evs : List Ev
  calls : ℕ
  done : ℕ
  errors : List (List Char)
  stopped : Bool
  deriving DecidableEq, Repr

/-- Lines 377-480: the batch loop.  `idx` is the position of the first task of
`tasks` in the whole batch, `c`/`done`/`errs` the accumulated call counter,
success counter and error list.  `stopped` records a batch-scoped cancel. -/
def convertGo (alv : ℕ → Bool) (N : ℕ) :
    List TaskEnv → ℕ → ℕ → ℕ → List (List Char) → GoState
  | [], _, c, done, errs => ⟨[], c, done, errs, false⟩
  | t :: rest, idx, c, done, errs =>
    match runTask alv N idx t c with
    | ⟨evs, c2, Outcome.missing⟩ =>
      let s := convertGo alv N rest (idx + 1) c2 done (errs ++ [missingMsg t])
      ⟨evs ++ s.evs, s.calls, s.done, s.errors, s.stopped⟩
    | ⟨evs, c2, Outcome.skipped⟩ =>
      let s := convertGo alv N rest (idx + 1) c2 done errs
      ⟨evs ++ s.evs, s.calls, s.done, s.errors, s.stopped⟩
    | ⟨evs, c2, Outcome.cancelled⟩ => ⟨evs, c2, done, errs, true⟩
    | ⟨evs, c2, Outcome.failed m⟩ =>
      let s := convertGo alv N rest (idx + 1) c2 done (errs ++ [m])
      ⟨evs ++ s.evs, s.calls, s.done, s.errors, s.stopped⟩
    | ⟨evs, c2, Outcome.ok⟩ =>
      let s := convertGo alv N rest (idx + 1) c2 (done + 1) errs
      ⟨evs ++ s.evs, s.calls, s.done, s.errors, s.stopped⟩

/-- Spec-level batch result: {done_count, total, errors, cancelled}. -/
structure BatchResult where
  done : ℕ
  total : ℕ
  errors : List (List Char)
  cancelled : Bool
  deriving DecidableEq, Repr

/-- Lines 366-506, `convert_files`: run the whole batch, close the progress
dialog exactly once (line 461 on the cancel path, line 482 otherwise), and
produce the batch result. -/
def convert_files (alv : ℕ → Bool) (files : List TaskEnv) : List Ev × BatchResult :=
  let s := convertGo alv files.length files 0 0 0 []
  (s.evs ++ (if s.stopped then [] else [Ev.close]),
   ⟨s.done, files.length, s.errors, s.stopped⟩)

/-- The sequence of percent values passed to `pbar_set`, in order. -/
def fvals (evs : List Ev) : List ℤ :=
  evs.filterMap fun e => match e with | Ev.setVal v => some v | _ => none

/-!
### IEEE-754 double model for the slice arithmetic

Lines 400-401 compute `int(idx / total * 100)` with Python floats, i.e.
binary64 arithmetic with round-to-nearest, ties-to-even.  `toDouble` rounds
an exact rational to the nearest binary64 value (valid for nonzero values in
the normal range, which covers every quantity arising in the slice
arithmetic; no overflow/underflow/subnormal handling is needed there).
Division and multiplication of doubles are correctly rounded, so applying
`toDouble` to the exact result of each operation models them faithfully.
-/

/-- Binary logarithm on ℕ by structural recursion on a fuel argument, so the
kernel can evaluate it.  `log2fuel f n = ⌊log₂ n⌋` whenever `n < 2 ^ f`. -/
def log2fuel : ℕ → ℕ → ℕ
  | 0, _ => 0
  | f + 1, n => if n ≤ 1 then 0 else log2fuel f (n / 2) + 1

/-- `⌊log₂ n⌋`, exact for every `n < 2 ^ 4096` — far beyond any quantity a
binary64 computation can produce. -/
def nlog2 (n : ℕ) : ℕ := log2fuel 4096 n

/-- `2 ^ e : ℚ` for an integer exponent. -/
def pow2 (e : ℤ) : ℚ :=
  if 0 ≤ e then ((2 ^ e.toNat : ℕ) : ℚ) else ((2 ^ (-e).toNat : ℕ) : ℚ)⁻¹

/-- Round a rational to the nearest integer, ties to even. -/
def roundHalfEven (q : ℚ) : ℤ :=
  let f := ⌊q⌋
  let r := q - (f : ℚ)
  if r < 1 / 2 then f else if 1 / 2 < r then f + 1 else if f % 2 = 0 then f else f + 1

/-- `⌊log₂ q⌋` for a positive rational `q = num / den`: it is `a - b` or
`a - b - 1` where `a = ⌊log₂ num⌋` and `b = ⌊log₂ den⌋`. -/
def qlog2 (q : ℚ) : ℤ :=
  let a : ℤ := (nlog2 q.num.natAbs : ℤ)
  let b : ℤ := (nlog2 q.den : ℤ)
  if pow2 (a - b) ≤ q then a - b else a - b - 1

/-- The binary64 value nearest to `q` (ties to even): the significand
`q · 2 ^ (52 - e)` with `e = ⌊log₂ |q|⌋` is rounded to an integer and scaled
back.  Exact for normal-range doubles. -/
def toDouble (q : ℚ) : ℚ :=
  if q = 0 then 0
  else
    let s : ℚ := if q < 0 then -1 else 1
    let e := qlog2 |q|
    s * (roundHalfEven (|q| * pow2 (52 - e)) : ℚ) * pow2 (e - 52)

/-- Correctly rounded binary64 division (of exactly representable operands). -/
def pyFloatDiv (a b : ℚ) : ℚ := toDouble (a / b)

/-- Correctly rounded binary64 multiplication (of exactly representable operands). -/
def pyFloatMul (a b : ℚ) : ℚ := toDouble (a * b)

/-- Line 400, `slice_start = int(idx / total * 100)`, with the float
operations modelled bit-exactly (`idx` and `total` convert to doubles
exactly for every realistic batch size, i.e. below 2^53). -/
def sliceStartPy (i N : ℕ) : ℤ := pyInt (pyFloatMul (pyFloatDiv (i : ℚ) (N : ℚ)) 100)

/-!
### Path model for the output-path choice (lines 383-388)

A path is represented by its final name component; `with_suffix`,
`with_name` and `with_stem` keep the parent directory, so two paths produced
from the same input are equal iff their names are.  The modelled operations
follow CPython `pathlib`: `suffix` is the part of the name from the last dot
on, provided that dot is neither the first nor the last character, else
empty; `stem` is the rest; `with_suffix(s)` replaces (or appends, when there
is no suffix) it; `with_stem(s)` is `with_name(s + suffix)`.  The
`ValueError` paths of `with_suffix` cannot trigger here: the program only
passes suffixes of the shape `'.' + fmt` for a known format, and a name that
exists on disk is nonempty. -/

/-- CPython `PurePath.suffix` on a name. -/
def pySuffix (name : List Char) : List Char :=
  let r := name.reverse
  let pre := r.takeWhile (· ≠ '.')
  if pre.length = r.length then []
  else if pre.length = 0 then []
  else if pre.length = r.length - 1 then []
  else '.' :: pre.reverse

/-- CPython `PurePath.stem` on a name. -/
def pyStem (name : List Char) : List Char :=
  name.take (name.length - (pySuffix name).length)

/-- CPython `PurePath.with_suffix` on a name (error-free cases). -/
def withSuffix (name newSuf : List Char) : List Char :=
  pyStem name ++ newSuf

/-- CPython `PurePath.with_stem` on a name: `with_name(stem + suffix)`. -/
def withStem (name newStem : List Char) : List Char :=
  newStem ++ pySuffix name

/-- Line 383: `suffix = ".m4a" if fmt in ("m4a", "alac") else f".{fmt}"`. -/
def targetSuffix (fmt : List Char) : List Char :=
  if fmt = "m4a".data ∨ fmt = "alac".data then ".m4a".data else '.' :: fmt

/-- Lines 384-388: the output name chosen before the task starts. -/
def outputName (fmt name : List Char) : List Char :=
  let suf := targetSuffix fmt
  let o := withSuffix name suf
  if o = name then withSuffix (withStem name (pyStem name ++ '_' :: fmt)) suf else o

/-- The keys of `FORMAT_DEFS`: the formats accepted by `main` (line 592). -/
def formatKeys : List (List Char) :=
  ["mp3".data, "ogg".data, "flac".data, "wav".data, "m4a".data, "opus".data, "alac".data]

/-- The poll state produced while task `i` runs (abbreviation). -/
def taskPoll (alv : ℕ → Bool) (N i : ℕ) (t : TaskEnv) (c : ℕ) : PollState :=
  pollLoop alv i (sliceStart i N) (sliceStart (i + 1) N) t.duration t.polls
    (sliceStart i N) (c + 1)

/-- The UTF-8 size in bytes of a decoded text. -/
def utf8Len (s : List Char) : ℕ := (s.map Char.utf8Size).sum


/-! ### Arithmetic facts about the slice and percent computations -/

theorem pyInt_of_nonneg {q : ℚ} (h : 0 ≤ q) : pyInt q = ⌊q⌋ := if_pos h

theorem sliceStart_nonneg (i N : ℕ) : 0 ≤ sliceStart i N := by
  rw [sliceStart, pyInt_of_nonneg (by positivity)]
  exact Int.floor_nonneg.mpr (by positivity)

theorem sliceStart_mono {i j : ℕ} (h : i ≤ j) (N : ℕ) :
    sliceStart i N ≤ sliceStart j N := by
  rw [sliceStart, sliceStart, pyInt_of_nonneg (by positivity),
    pyInt_of_nonneg (by positivity)]
  apply Int.floor_le_floor
  gcongr

theorem sliceStart_zero (N : ℕ) : sliceStart 0 N = 0 := by
  simp [sliceStart, pyInt]

theorem sliceStart_self {N : ℕ} (hN : 0 < N) : sliceStart N N = 100 := by
  rw [sliceStart, div_self (by exact_mod_cast hN.ne' : (N : ℚ) ≠ 0), one_mul]
  norm_num [pyInt]

/-- The exact-arithmetic slice boundary is the integer floor `i * 100 / N`. -/
theorem sliceStart_eq_floor (i N : ℕ) : sliceStart i N = ((i * 100 : ℕ) / N : ℕ) := by
  rw [sliceStart, pyInt_of_nonneg (by positivity), div_mul_eq_mul_div]
  have h1 : ((i : ℚ) * 100) = ((i * 100 : ℕ) : ℚ) := by push_cast; ring
  rw [h1]
  have h2 : (((i * 100 : ℕ) : ℤ) : ℚ) = ((i * 100 : ℕ) : ℚ) := by push_cast; ring
  rw [← h2, ← Nat.cast_ofNat (n := 100)]
  rw [show ((N : ℚ)) = ((N : ℕ) : ℚ) from rfl]
  rw [Rat.floor_intCast_div_natCast]
  simp [Int.ofNat_div]

theorem filePct_nonneg (us : ℕ) {d : ℚ} (hd : 0 < d) : 0 ≤ filePct us d :=
  le_min (by norm_num) (by positivity)

theorem filePct_le_one (us : ℕ) (d : ℚ) : filePct us d ≤ 1 := min_le_left _ _

theorem overallPct_lb {sS sE : ℤ} (hse : sS ≤ sE) (us : ℕ) {d : ℚ} (hd : 0 < d) :
    sS ≤ overallPct sS sE us d := by
  have h0 : (0 : ℚ) ≤ ((sE - sS : ℤ) : ℚ) := by exact_mod_cast sub_nonneg.mpr hse
  have h2 : 0 ≤ filePct us d * ((sE - sS : ℤ) : ℚ) :=
    mul_nonneg (filePct_nonneg us hd) h0
  rw [overallPct, pyInt_of_nonneg h2]
  have := Int.floor_nonneg.mpr h2
  omega

theorem overallPct_ub {sS sE : ℤ} (hse : sS ≤ sE) (us : ℕ) {d : ℚ} (hd : 0 < d) :
    overallPct sS sE us d ≤ sE := by
  have h0 : (0 : ℚ) ≤ ((sE - sS : ℤ) : ℚ) := by exact_mod_cast sub_nonneg.mpr hse
  have h1 : filePct us d * ((sE - sS : ℤ) : ℚ) ≤ ((sE - sS : ℤ) : ℚ) :=
    mul_le_of_le_one_left h0 (filePct_le_one us d)
  have h2 : 0 ≤ filePct us d * ((sE - sS : ℤ) : ℚ) :=
    mul_nonneg (filePct_nonneg us hd) h0
  rw [overallPct, pyInt_of_nonneg h2]
  have h3 := Int.floor_le_floor h1
  rw [Int.floor_intCast] at h3
  omega

/-! ### Poll-loop facts -/

theorem mem_fvals {v : ℤ} {evs : List Ev} : v ∈ fvals evs ↔ Ev.setVal v ∈ evs := by
  constructor
  · intro h
    rw [fvals, List.mem_filterMap] at h
    obtain ⟨e, he, hv⟩ := h
    cases e <;> simp_all
  · intro h
    rw [fvals, List.mem_filterMap]
    exact ⟨Ev.setVal v, h, rfl⟩

/-- If the duration probe failed, the poll loop does nothing at all: no
events, no `pbar_set` calls, no cancellation. -/
theorem pollLoop_none_dur (alv : ℕ → Bool) (i : ℕ) (sS sE : ℤ) :
    ∀ (polls : List (Option ℕ)) (last : ℤ) (c : ℕ),
      pollLoop alv i sS sE none polls last c = ⟨[], last, c, false⟩ := by
  intro polls
  induction polls with
  | nil => intro last c; rfl
  | cons p rest ih =>
    intro last c
    cases p <;> simp only [pollLoop] <;> exact ih last c

/-- If no poll tick ever yields an `out_time_ms` record, the poll loop does
nothing at all. -/
theorem pollLoop_none_polls (alv : ℕ → Bool) (i : ℕ) (sS sE : ℤ) (dur : Option ℚ) :
    ∀ (polls : List (Option ℕ)), (∀ p ∈ polls, p = none) →
      ∀ (last : ℤ) (c : ℕ), pollLoop alv i sS sE dur polls last c = ⟨[], last, c, false⟩ := by
  intro polls
  induction polls with
  | nil => intro _ last c; rfl
  | cons p rest ih =>
    intro hall last c
    have hp : p = none := hall p (by simp)
    subst hp
    cases dur <;> simp only [pollLoop] <;>
      exact ih (fun q hq => hall q (by simp [hq])) last c

/-- Shape of the poll-loop event list: every event is either the kill of this
task or a forwarded value that is strictly above the incoming `last_pct` and
of the form `overallPct` for some tick; the forwarded values are strictly
increasing; and a cancelled loop contains the kill event. -/
theorem pollLoop_evs_spec (alv : ℕ → Bool) (i : ℕ) (sS sE : ℤ) (dur : Option ℚ) :
    ∀ (polls : List (Option ℕ)) (last : ℤ) (c : ℕ),
      (∀ e ∈ (pollLoop alv i sS sE dur polls last c).evs,
        e = Ev.kill i ∨ ∃ v, e = Ev.setVal v ∧ last < v ∧
          ∃ us d, dur = some d ∧ 0 < d ∧ v = overallPct sS sE us d) ∧
      List.Pairwise (· < ·) (fvals (pollLoop alv i sS sE dur polls last c).evs) ∧
      ((pollLoop alv i sS sE dur polls last c).cancelled = true →
        Ev.kill i ∈ (pollLoop alv i sS sE dur polls last c).evs) := by
  intro polls
  induction polls with
  | nil =>
    intro last c
    refine ⟨by simp [pollLoop], by simp [pollLoop, fvals], by simp [pollLoop]⟩
  | cons p rest ih =>
    intro last c
    rcases p with _ | us
    · simpa only [pollLoop] using ih last c
    rcases dur with _ | d
    · simpa only [pollLoop] using ih last c
    by_cases hd : (0 : ℚ) < d
    · by_cases hlt : last < overallPct sS sE us d
      · by_cases halv : alv c = true
        · have hred : pollLoop alv i sS sE (some d) (some us :: rest) last c =
              ⟨Ev.setVal (overallPct sS sE us d) ::
                 (pollLoop alv i sS sE (some d) rest (overallPct sS sE us d) (c + 1)).evs,
               (pollLoop alv i sS sE (some d) rest (overallPct sS sE us d) (c + 1)).last,
               (pollLoop alv i sS sE (some d) rest (overallPct sS sE us d) (c + 1)).calls,
               (pollLoop alv i sS sE (some d) rest (overallPct sS sE us d) (c + 1)).cancelled⟩ := by
            simp only [pollLoop, if_pos hd, if_pos hlt, halv, if_pos]
          obtain ⟨ih1, ih2, ih3⟩ := ih (overallPct sS sE us d) (c + 1)
          rw [hred]
          refine ⟨?_, ?_, ?_⟩
          · intro e he
            rcases List.mem_cons.mp he with he | he
            · exact Or.inr ⟨overallPct sS sE us d, he, hlt, us, d, rfl, hd, rfl⟩
            · rcases ih1 e he with h | ⟨v, hv, hlast, hrest⟩
              · exact Or.inl h
              · exact Or.inr ⟨v, hv, lt_trans hlt hlast, hrest⟩
          · have : fvals (Ev.setVal (overallPct sS sE us d) ::
                (pollLoop alv i sS sE (some d) rest (overallPct sS sE us d) (c + 1)).evs) =
                overallPct sS sE us d ::
                  fvals (pollLoop alv i sS sE (some d) rest (overallPct sS sE us d) (c + 1)).evs := by
              simp [fvals]
            rw [this]
            refine List.Pairwise.cons ?_ ih2
            intro v hv
            rcases ih1 (Ev.setVal v) (mem_fvals.mp hv) with h | ⟨w, hw, hlast, _⟩
            · exact absurd h (by simp)
            · obtain hvw : v = w := by injection hw
              exact hvw ▸ hlast
          · intro hc
            exact List.mem_cons.mpr (Or.inr (ih3 hc))
        · have halv' : alv c = false := by
            cases h : alv c
            · rfl
            · exact absurd h halv
          have hred : pollLoop alv i sS sE (some d) (some us :: rest) last c =
              ⟨[Ev.setVal (overallPct sS sE us d), Ev.kill i],
                overallPct sS sE us d, c + 1, true⟩ := by
            simp only [pollLoop, if_pos hd, if_pos hlt, halv']
            simp
          rw [hred]
          refine ⟨?_, ?_, ?_⟩
          · intro e he
            rcases List.mem_cons.mp he with he | he
            · exact Or.inr ⟨overallPct sS sE us d, he, hlt, us, d, rfl, hd, rfl⟩
            · simp only [List.mem_singleton] at he
              exact Or.inl he
          · simp [fvals]
          · intro _
            simp
      · have hred : pollLoop alv i sS sE (some d) (some us :: rest) last c =
            pollLoop alv i sS sE (some d) rest last c := by
          simp only [pollLoop, if_pos hd, if_neg hlt]
        rw [hred]
        exact ih last c
    · have hred : pollLoop alv i sS sE (some d) (some us :: rest) last c =
          pollLoop alv i sS sE (some d) rest last c := by
        simp only [pollLoop, if_neg hd]
      rw [hred]
      exact ih last c

/-! ### Task-runner facts -/

theorem runTask_missing {t : TaskEnv} (h : t.present = false)
    (alv : ℕ → Bool) (N i c : ℕ) : runTask alv N i t c = ⟨[], c, .missing⟩ := by
  rw [runTask, h]
  rfl

theorem runTask_skipped {t : TaskEnv} (hp : t.present = true) (ha : t.accept = false)
    (alv : ℕ → Bool) (N i c : ℕ) : runTask alv N i t c = ⟨[], c, .skipped⟩ := by
  rw [runTask, hp, ha]
  rfl

theorem runTask_eq {t : TaskEnv} (hp : t.present = true) (ha : t.accept = true)
    (alv : ℕ → Bool) (N i c : ℕ) :
    runTask alv N i t c =
      (if (taskPoll alv N i t c).cancelled then
        ⟨Ev.setVal (sliceStart i N) :: Ev.mkProg i :: Ev.spawn i ::
          ((taskPoll alv N i t c).evs ++ [Ev.rmProg i, Ev.rmOut i, Ev.close]),
         (taskPoll alv N i t c).calls, .cancelled⟩
      else if t.exitCode ≠ 0 then
        ⟨Ev.setVal (sliceStart i N) :: Ev.mkProg i :: Ev.spawn i ::
          ((taskPoll alv N i t c).evs ++ [Ev.rmProg i, Ev.rmOut i]),
         (taskPoll alv N i t c).calls, .failed (failMsg t)⟩
      else
        ⟨Ev.setVal (sliceStart i N) :: Ev.mkProg i :: Ev.spawn i ::
          ((taskPoll alv N i t c).evs ++ [Ev.rmProg i, Ev.setVal (sliceStart (i + 1) N)]),
         (taskPoll alv N i t c).calls + 1, .ok⟩) := by
  rw [runTask, hp, ha]
  rfl

/-- Every event a task emits is a forwarded value or one of this task's own
file/process events. -/
theorem runTask_evs_shape (alv : ℕ → Bool) (N i : ℕ) (t : TaskEnv) (c : ℕ) :
    ∀ e ∈ (runTask alv N i t c).evs,
      (∃ v, e = Ev.setVal v) ∨ e = Ev.mkProg i ∨ e = Ev.spawn i ∨ e = Ev.kill i ∨
        e = Ev.rmProg i ∨ e = Ev.rmOut i ∨ e = Ev.close := by
  intro e he
  rcases hpres : t.present with _ | _
  · rw [runTask_missing hpres] at he
    simp at he
  rcases hacc : t.accept with _ | _
  · rw [runTask_skipped hpres hacc] at he
    simp at he
  have hpoll : ∀ e ∈ (taskPoll alv N i t c).evs,
      (∃ v, e = Ev.setVal v) ∨ e = Ev.kill i := by
    intro e he
    rcases (pollLoop_evs_spec alv i (sliceStart i N) (sliceStart (i + 1) N)
      t.duration t.polls (sliceStart i N) (c + 1)).1 e he with h | ⟨v, hv, _⟩
    · exact Or.inr h
    · exact Or.inl ⟨v, hv⟩
  rw [runTask_eq hpres hacc] at he
  split at he
  · simp only [List.mem_cons, List.mem_append, List.mem_singleton,
      List.not_mem_nil, or_false] at he
    rcases he with he | he | he | he | he | he | he
    · exact Or.inl ⟨_, he⟩
    · exact Or.inr (Or.inl he)
    · exact Or.inr (Or.inr (Or.inl he))
    · rcases hpoll e he with ⟨v, hv⟩ | h
      · exact Or.inl ⟨v, hv⟩
      · exact Or.inr (Or.inr (Or.inr (Or.inl h)))
    · exact Or.inr (Or.inr (Or.inr (Or.inr (Or.inl he))))
    · exact Or.inr (Or.inr (Or.inr (Or.inr (Or.inr (Or.inl he)))))
    · exact Or.inr (Or.inr (Or.inr (Or.inr (Or.inr (Or.inr he)))))
  split at he
  · simp only [List.mem_cons, List.mem_append, List.mem_singleton,
      List.not_mem_nil, or_false] at he
    rcases he with he | he | he | he | he | he
    · exact Or.inl ⟨_, he⟩
    · exact Or.inr (Or.inl he)
    · exact Or.inr (Or.inr (Or.inl he))
    · rcases hpoll e he with ⟨v, hv⟩ | h
      · exact Or.inl ⟨v, hv⟩
      · exact Or.inr (Or.inr (Or.inr (Or.inl h)))
    · exact Or.inr (Or.inr (Or.inr (Or.inr (Or.inl he))))
    · exact Or.inr (Or.inr (Or.inr (Or.inr (Or.inr (Or.inl he)))))
  · simp only [List.mem_cons, List.mem_append, List.mem_singleton,
      List.not_mem_nil, or_false] at he
    rcases he with he | he | he | he | he | he
    · exact Or.inl ⟨_, he⟩
    · exact Or.inr (Or.inl he)
    · exact Or.inr (Or.inr (Or.inl he))
    · rcases hpoll e he with ⟨v, hv⟩ | h
      · exact Or.inl ⟨v, hv⟩
      · exact Or.inr (Or.inr (Or.inr (Or.inl h)))
    · exact Or.inr (Or.inr (Or.inr (Or.inr (Or.inl he))))
    · exact Or.inl ⟨_, he⟩

theorem fvals_nil : fvals [] = [] := rfl

theorem fvals_cons_setVal (v : ℤ) (l : List Ev) :
    fvals (Ev.setVal v :: l) = v :: fvals l := rfl

theorem fvals_cons_mkProg (i : ℕ) (l : List Ev) : fvals (Ev.mkProg i :: l) = fvals l := rfl

theorem fvals_cons_rmProg (i : ℕ) (l : List Ev) : fvals (Ev.rmProg i :: l) = fvals l := rfl

theorem fvals_cons_spawn (i : ℕ) (l : List Ev) : fvals (Ev.spawn i :: l) = fvals l := rfl

theorem fvals_cons_kill (i : ℕ) (l : List Ev) : fvals (Ev.kill i :: l) = fvals l := rfl

theorem fvals_cons_rmOut (i : ℕ) (l : List Ev) : fvals (Ev.rmOut i :: l) = fvals l := rfl

theorem fvals_cons_close (l : List Ev) : fvals (Ev.close :: l) = fvals l := rfl

theorem fvals_append (l1 l2 : List Ev) : fvals (l1 ++ l2) = fvals l1 ++ fvals l2 :=
  List.filterMap_append l1 l2 _

theorem pollLoop_close_not_mem (alv : ℕ → Bool) (i : ℕ) (sS sE : ℤ) (dur : Option ℚ)
    (polls : List (Option ℕ)) (last : ℤ) (c : ℕ) :
    Ev.close ∉ (pollLoop alv i sS sE dur polls last c).evs := by
  intro h
  rcases (pollLoop_evs_spec alv i sS sE dur polls last c).1 _ h with h' | ⟨v, hv, _⟩
  · simp at h'
  · simp at hv

/-- Bounds on every value the poll loop forwards: strictly above the incoming
`last_pct` and at most `slice_end`. -/
theorem taskPoll_fvals_bounds (alv : ℕ → Bool) (N i : ℕ) (t : TaskEnv) (c : ℕ) :
    ∀ v ∈ fvals (taskPoll alv N i t c).evs,
      sliceStart i N < v ∧ v ≤ sliceStart (i + 1) N := by
  intro v hv
  rcases (pollLoop_evs_spec alv i (sliceStart i N) (sliceStart (i + 1) N)
      t.duration t.polls (sliceStart i N) (c + 1)).1 _ (mem_fvals.mp hv) with
    h | ⟨w, hw, hlast, us, d, _, hd, hval⟩
  · simp at h
  · obtain rfl : v = w := by injection hw
    exact ⟨hlast, hval ▸ overallPct_ub (sliceStart_mono (Nat.le_succ i) N) us hd⟩

theorem taskPoll_fvals_pairwise (alv : ℕ → Bool) (N i : ℕ) (t : TaskEnv) (c : ℕ) :
    List.Pairwise (· < ·) (fvals (taskPoll alv N i t c).evs) :=
  (pollLoop_evs_spec alv i (sliceStart i N) (sliceStart (i + 1) N)
    t.duration t.polls (sliceStart i N) (c + 1)).2.1

/-- The forwarded values of one task step are non-decreasing and lie inside
the task's slice `[slice_start, slice_end]`. -/
theorem runTask_fvals (alv : ℕ → Bool) (N i : ℕ) (t : TaskEnv) (c : ℕ) :
    List.Pairwise (· ≤ ·) (fvals (runTask alv N i t c).evs) ∧
    ∀ v ∈ fvals (runTask alv N i t c).evs,
      sliceStart i N ≤ v ∧ v ≤ sliceStart (i + 1) N := by
  have hse : sliceStart i N ≤ sliceStart (i + 1) N := sliceStart_mono (Nat.le_succ i) N
  rcases hpres : t.present with _ | _
  · rw [runTask_missing hpres]
    simp [fvals]
  rcases hacc : t.accept with _ | _
  · rw [runTask_skipped hpres hacc]
    simp [fvals]
  have hb := taskPoll_fvals_bounds alv N i t c
  have hpw := taskPoll_fvals_pairwise alv N i t c
  rw [runTask_eq hpres hacc]
  split
  · rw [show (⟨Ev.setVal (sliceStart i N) :: Ev.mkProg i :: Ev.spawn i ::
        ((taskPoll alv N i t c).evs ++ [Ev.rmProg i, Ev.rmOut i, Ev.close]),
        (taskPoll alv N i t c).calls, Outcome.cancelled⟩ : TaskResult).evs =
        Ev.setVal (sliceStart i N) :: Ev.mkProg i :: Ev.spawn i ::
        ((taskPoll alv N i t c).evs ++ [Ev.rmProg i, Ev.rmOut i, Ev.close]) from rfl]
    rw [fvals_cons_setVal, fvals_cons_mkProg, fvals_cons_spawn, fvals_append]
    rw [show fvals [Ev.rmProg i, Ev.rmOut i, Ev.close] = [] from rfl, List.append_nil]
    constructor
    · exact List.Pairwise.cons (fun v hv => le_of_lt (hb v hv).1) (hpw.imp le_of_lt)
    · intro v hv
      rcases List.mem_cons.mp hv with rfl | hv
      · exact ⟨le_refl _, hse⟩
      · exact ⟨le_of_lt (hb v hv).1, (hb v hv).2⟩
  split
  · rw [show (⟨Ev.setVal (sliceStart i N) :: Ev.mkProg i :: Ev.spawn i ::
        ((taskPoll alv N i t c).evs ++ [Ev.rmProg i, Ev.rmOut i]),
        (taskPoll alv N i t c).calls, Outcome.failed (failMsg t)⟩ : TaskResult).evs =
        Ev.setVal (sliceStart i N) :: Ev.mkProg i :: Ev.spawn i ::
        ((taskPoll alv N i t c).evs ++ [Ev.rmProg i, Ev.rmOut i]) from rfl]
    rw [fvals_cons_setVal, fvals_cons_mkProg, fvals_cons_spawn, fvals_append]
    rw [show fvals [Ev.rmProg i, Ev.rmOut i] = [] from rfl, List.append_nil]
    constructor
    · exact List.Pairwise.cons (fun v hv => le_of_lt (hb v hv).1) (hpw.imp le_of_lt)
    · intro v hv
      rcases List.mem_cons.mp hv with rfl | hv
      · exact ⟨le_refl _, hse⟩
      · exact ⟨le_of_lt (hb v hv).1, (hb v hv).2⟩
  · rw [show (⟨Ev.setVal (sliceStart i N) :: Ev.mkProg i :: Ev.spawn i ::
        ((taskPoll alv N i t c).evs ++ [Ev.rmProg i, Ev.setVal (sliceStart (i + 1) N)]),
        (taskPoll alv N i t c).calls + 1, Outcome.ok⟩ : TaskResult).evs =
        Ev.setVal (sliceStart i N) :: Ev.mkProg i :: Ev.spawn i ::
        ((taskPoll alv N i t c).evs ++ [Ev.rmProg i, Ev.setVal (sliceStart (i + 1) N)]) from rfl]
    rw [fvals_cons_setVal, fvals_cons_mkProg, fvals_cons_spawn, fvals_append]
    rw [show fvals [Ev.rmProg i, Ev.setVal (sliceStart (i + 1) N)] =
        [sliceStart (i + 1) N] from rfl]
    constructor
    · refine List.Pairwise.cons ?_ (List.pairwise_append.mpr ⟨hpw.imp le_of_lt, ?_, ?_⟩)
      · intro v hv
        rcases List.mem_append.mp hv with hv | hv
        · exact le_of_lt (hb v hv).1
        · rcases List.mem_singleton.mp hv with rfl
          exact hse
      · simp
      · intro v hv w hw
        rcases List.mem_singleton.mp hw with rfl
        exact (hb v hv).2
    · intro v hv
      rcases List.mem_cons.mp hv with rfl | hv
      · exact ⟨le_refl _, hse⟩
      rcases List.mem_append.mp hv with hv | hv
      · exact ⟨le_of_lt (hb v hv).1, (hb v hv).2⟩
      · rcases List.mem_singleton.mp hv with rfl
        exact ⟨hse, le_refl _⟩

theorem runTask_close_count (alv : ℕ → Bool) (N i : ℕ) (t : TaskEnv) (c : ℕ) :
    (runTask alv N i t c).evs.count Ev.close =
      (if (runTask alv N i t c).out = Outcome.cancelled then 1 else 0) := by
  have hnc : Ev.close ∉ (taskPoll alv N i t c).evs :=
    pollLoop_close_not_mem alv i (sliceStart i N) (sliceStart (i + 1) N)
      t.duration t.polls (sliceStart i N) (c + 1)
  rcases hpres : t.present with _ | _
  · rw [runTask_missing hpres]
    simp
  rcases hacc : t.accept with _ | _
  · rw [runTask_skipped hpres hacc]
    simp
  rw [runTask_eq hpres hacc]
  split
  · simp [List.count_cons, List.count_append, List.count_eq_zero.mpr hnc]
  split
  · simp [List.count_cons, List.count_append, List.count_eq_zero.mpr hnc]
  · simp [List.count_cons, List.count_append, List.count_eq_zero.mpr hnc]

/-- A task ends cancelled only when it was actually running (file present,
warning accepted) and its poll loop observed a dead dialog. -/
theorem runTask_cancelled_inv (alv : ℕ → Bool) (N i : ℕ) (t : TaskEnv) (c : ℕ)
    (hout : (runTask alv N i t c).out = Outcome.cancelled) :
    t.present = true ∧ t.accept = true ∧ (taskPoll alv N i t c).cancelled = true := by
  rcases hpres : t.present with _ | _
  · rw [runTask_missing hpres] at hout
    simp at hout
  rcases hacc : t.accept with _ | _
  · rw [runTask_skipped hpres hacc] at hout
    simp at hout
  rw [runTask_eq hpres hacc] at hout
  split at hout
  · exact ⟨rfl, rfl, by assumption⟩
  split at hout <;> simp at hout

/-- A cancelled task kills its encoder, removes its partial output and its
progress file, and closes the dialog, all inside its own event block. -/
theorem runTask_cancelled_evs (alv : ℕ → Bool) (N i : ℕ) (t : TaskEnv) (c : ℕ)
    (hout : (runTask alv N i t c).out = Outcome.cancelled) :
    Ev.kill i ∈ (runTask alv N i t c).evs ∧
    Ev.rmOut i ∈ (runTask alv N i t c).evs ∧
    Ev.rmProg i ∈ (runTask alv N i t c).evs ∧
    Ev.close ∈ (runTask alv N i t c).evs := by
  obtain ⟨hpres, hacc, hcanc⟩ := runTask_cancelled_inv alv N i t c hout
  have hkill : Ev.kill i ∈ (taskPoll alv N i t c).evs :=
    (pollLoop_evs_spec alv i (sliceStart i N) (sliceStart (i + 1) N)
      t.duration t.polls (sliceStart i N) (c + 1)).2.2 hcanc
  rw [runTask_eq hpres hacc, if_pos hcanc]
  refine ⟨?_, ?_, ?_, ?_⟩ <;> simp [List.mem_cons, List.mem_append]
  · exact hkill

theorem runTask_not_cancelled_of_poll (alv : ℕ → Bool) (N i : ℕ) (t : TaskEnv) (c : ℕ)
    (hc : (taskPoll alv N i t c).cancelled = false) :
    (runTask alv N i t c).out ≠ Outcome.cancelled := by
  intro hout
  obtain ⟨_, _, h⟩ := runTask_cancelled_inv alv N i t c hout
  rw [hc] at h
  exact Bool.false_ne_true h

theorem runTask_failed_eq {t : TaskEnv} (hp : t.present = true) (ha : t.accept = true)
    (he : t.exitCode ≠ 0) (alv : ℕ → Bool) (N i c : ℕ)
    (hc : (taskPoll alv N i t c).cancelled = false) :
    runTask alv N i t c =
      ⟨Ev.setVal (sliceStart i N) :: Ev.mkProg i :: Ev.spawn i ::
        ((taskPoll alv N i t c).evs ++ [Ev.rmProg i, Ev.rmOut i]),
       (taskPoll alv N i t c).calls, .failed (failMsg t)⟩ := by
  rw [runTask_eq hp ha, hc]
  simp [he]

theorem runTask_ok_eq {t : TaskEnv} (hp : t.present = true) (ha : t.accept = true)
    (he : t.exitCode = 0) (alv : ℕ → Bool) (N i c : ℕ)
    (hc : (taskPoll alv N i t c).cancelled = false) :
    runTask alv N i t c =
      ⟨Ev.setVal (sliceStart i N) :: Ev.mkProg i :: Ev.spawn i ::
        ((taskPoll alv N i t c).evs ++ [Ev.rmProg i, Ev.setVal (sliceStart (i + 1) N)]),
       (taskPoll alv N i t c).calls + 1, .ok⟩ := by
  rw [runTask_eq hp ha, hc]
  simp [he]

/-- Whichever way a spawned task ends, its progress file is removed: the
event block that contains `mkProg i` also contains `rmProg i`. -/
theorem runTask_mkProg_rmProg (alv : ℕ → Bool) (N i : ℕ) (t : TaskEnv) (c : ℕ) (j : ℕ)
    (h : Ev.mkProg j ∈ (runTask alv N i t c).evs) :
    Ev.rmProg j ∈ (runTask alv N i t c).evs := by
  have hj : j = i := by
    rcases runTask_evs_shape alv N i t c _ h with ⟨v, hv⟩ | h' | h' | h' | h' | h' | h' <;>
      first
        | (exfalso; simp at hv)
        | (injection h')
        | (exfalso; simp at h')
  subst hj
  rcases hpres : t.present with _ | _
  · rw [runTask_missing hpres] at h
    simp at h
  rcases hacc : t.accept with _ | _
  · rw [runTask_skipped hpres hacc] at h
    simp at h
  rw [runTask_eq hpres hacc]
  split
  · simp [List.mem_cons, List.mem_append]
  split <;> simp [List.mem_cons, List.mem_append]

/-! ### Batch-controller facts -/

theorem convertGo_nil (alv : ℕ → Bool) (N idx c done : ℕ) (errs : List (List Char)) :
    convertGo alv N [] idx c done errs = ⟨[], c, done, errs, false⟩ := rfl

theorem convertGo_cons_missing {alv : ℕ → Bool} {N idx c : ℕ} {t : TaskEnv}
    {evs : List Ev} {c2 : ℕ}
    (hrt : runTask alv N idx t c = ⟨evs, c2, Outcome.missing⟩)
    (rest : List TaskEnv) (done : ℕ) (errs : List (List Char)) :
    convertGo alv N (t :: rest) idx c done errs =
      ⟨evs ++ (convertGo alv N rest (idx + 1) c2 done (errs ++ [missingMsg t])).evs,
       (convertGo alv N rest (idx + 1) c2 done (errs ++ [missingMsg t])).calls,
       (convertGo alv N rest (idx + 1) c2 done (errs ++ [missingMsg t])).done,
       (convertGo alv N rest (idx + 1) c2 done (errs ++ [missingMsg t])).errors,
       (convertGo alv N rest (idx + 1) c2 done (errs ++ [missingMsg t])).stopped⟩ := by
  simp only [convertGo, hrt]

theorem convertGo_cons_skipped {alv : ℕ → Bool} {N idx c : ℕ} {t : TaskEnv}
    {evs : List Ev} {c2 : ℕ}
    (hrt : runTask alv N idx t c = ⟨evs, c2, Outcome.skipped⟩)
    (rest : List TaskEnv) (done : ℕ) (errs : List (List Char)) :
    convertGo alv N (t :: rest) idx c done errs =
      ⟨evs ++ (convertGo alv N rest (idx + 1) c2 done errs).evs,
       (convertGo alv N rest (idx + 1) c2 done errs).calls,
       (convertGo alv N rest (idx + 1) c2 done errs).done,
       (convertGo alv N rest (idx + 1) c2 done errs).errors,
       (convertGo alv N rest (idx + 1) c2 done errs).stopped⟩ := by
  simp only [convertGo, hrt]

theorem convertGo_cons_cancelled {alv : ℕ → Bool} {N idx c : ℕ} {t : TaskEnv}
    {evs : List Ev} {c2 : ℕ}
    (hrt : runTask alv N idx t c = ⟨evs, c2, Outcome.cancelled⟩)
    (rest : List TaskEnv) (done : ℕ) (errs : List (List Char)) :
    convertGo alv N (t :: rest) idx c done errs = ⟨evs, c2, done, errs, true⟩ := by
  simp only [convertGo, hrt]

theorem convertGo_cons_failed {alv : ℕ → Bool} {N idx c : ℕ} {t : TaskEnv}
    {evs : List Ev} {c2 : ℕ} {m : List Char}
    (hrt : runTask alv N idx t c = ⟨evs, c2, Outcome.failed m⟩)
    (rest : List TaskEnv) (done : ℕ) (errs : List (List Char)) :
    convertGo alv N (t :: rest) idx c done errs =
      ⟨evs ++ (convertGo alv N rest (idx + 1) c2 done (errs ++ [m])).evs,
       (convertGo alv N rest (idx + 1) c2 done (errs ++ [m])).calls,
       (convertGo alv N rest (idx + 1) c2 done (errs ++ [m])).done,
       (convertGo alv N rest (idx + 1) c2 done (errs ++ [m])).errors,
       (convertGo alv N rest (idx + 1) c2 done (errs ++ [m])).stopped⟩ := by
  simp only [convertGo, hrt]

theorem convertGo_cons_ok {alv : ℕ → Bool} {N idx c : ℕ} {t : TaskEnv}
    {evs : List Ev} {c2 : ℕ}
    (hrt : runTask alv N idx t c = ⟨evs, c2, Outcome.ok⟩)
    (rest : List TaskEnv) (done : ℕ) (errs : List (List Char)) :
    convertGo alv N (t :: rest) idx c done errs =
      ⟨evs ++ (convertGo alv N rest (idx + 1) c2 (done + 1) errs).evs,
       (convertGo alv N rest (idx + 1) c2 (done + 1) errs).calls,
       (convertGo alv N rest (idx + 1) c2 (done + 1) errs).done,
       (convertGo alv N rest (idx + 1) c2 (done + 1) errs).errors,
       (convertGo alv N rest (idx + 1) c2 (done + 1) errs).stopped⟩ := by
  simp only [convertGo, hrt]

theorem fvals_glue {B F : List ℤ} {a b : ℤ} (hab : a ≤ b)
    (hB : List.Pairwise (· ≤ ·) B) (hF : List.Pairwise (· ≤ ·) F)
    (hBb : ∀ v ∈ B, a ≤ v ∧ v ≤ b) (hFl : ∀ v ∈ F, b ≤ v) :
    List.Pairwise (· ≤ ·) (B ++ F) ∧ ∀ v ∈ B ++ F, a ≤ v := by
  constructor
  · exact List.pairwise_append.mpr
      ⟨hB, hF, fun x hx y hy => le_trans (hBb x hx).2 (hFl y hy)⟩
  · intro v hv
    rcases List.mem_append.mp hv with hv | hv
    · exact (hBb v hv).1
    · exact le_trans hab (hFl v hv)

/-- The dialog-close count of the batch loop: one if it stopped on a cancel
(line 461), zero otherwise (the final close of line 482 is outside the loop). -/
theorem convertGo_close_count (alv : ℕ → Bool) (N : ℕ) :
    ∀ (tasks : List TaskEnv) (idx c done : ℕ) (errs : List (List Char)),
      (convertGo alv N tasks idx c done errs).evs.count Ev.close =
        (if (convertGo alv N tasks idx c done errs).stopped then 1 else 0) := by
  intro tasks
  induction tasks with
  | nil =>
    intro idx c done errs
    rw [convertGo_nil]
    simp
  | cons t rest ih =>
    intro idx c done errs
    have hcc := runTask_close_count alv N idx t c
    rcases hrt : runTask alv N idx t c with ⟨evs, c2, out⟩
    rw [hrt] at hcc
    cases out with
    | missing =>
      rw [convertGo_cons_missing hrt]
      simp only [List.count_append]
      simp at hcc
      rw [hcc, ih]
      simp
    | skipped =>
      rw [convertGo_cons_skipped hrt]
      simp only [List.count_append]
      simp at hcc
      rw [hcc, ih]
      simp
    | cancelled =>
      rw [convertGo_cons_cancelled hrt]
      simp at hcc
      simpa using hcc
    | failed m =>
      rw [convertGo_cons_failed hrt]
      simp only [List.count_append]
      simp at hcc
      rw [hcc, ih]
      simp
    | ok =>
      rw [convertGo_cons_ok hrt]
      simp only [List.count_append]
      simp at hcc
      rw [hcc, ih]
      simp

/-- The error list only ever grows by appending. -/
theorem convertGo_errors_extend (alv : ℕ → Bool) (N : ℕ) :
    ∀ (tasks : List TaskEnv) (idx c done : ℕ) (errs : List (List Char)),
      ∃ es, (convertGo alv N tasks idx c done errs).errors = errs ++ es := by
  intro tasks
  induction tasks with
  | nil =>
    intro idx c done errs
    exact ⟨[], by rw [convertGo_nil]; simp⟩
  | cons t rest ih =>
    intro idx c done errs
    rcases hrt : runTask alv N idx t c with ⟨evs, c2, out⟩
    cases out with
    | missing =>
      rw [convertGo_cons_missing hrt]
      obtain ⟨es, hes⟩ := ih (idx + 1) c2 done (errs ++ [missingMsg t])
      exact ⟨[missingMsg t] ++ es, by simp [hes]⟩
    | skipped =>
      rw [convertGo_cons_skipped hrt]
      exact ih (idx + 1) c2 done errs
    | cancelled =>
      rw [convertGo_cons_cancelled hrt]
      exact ⟨[], by simp⟩
    | failed m =>
      rw [convertGo_cons_failed hrt]
      obtain ⟨es, hes⟩ := ih (idx + 1) c2 done (errs ++ [m])
      exact ⟨[m] ++ es, by simp [hes]⟩
    | ok =>
      rw [convertGo_cons_ok hrt]
      exact ih (idx + 1) c2 (done + 1) errs

/-- Spawn and progress-file-creation events carry the index of a task in the
processed range. -/
theorem convertGo_spawn_mkProg_range (alv : ℕ → Bool) (N : ℕ) :
    ∀ (tasks : List TaskEnv) (idx c done : ℕ) (errs : List (List Char)) (j : ℕ),
      (Ev.spawn j ∈ (convertGo alv N tasks idx c done errs).evs ∨
        Ev.mkProg j ∈ (convertGo alv N tasks idx c done errs).evs) →
      idx ≤ j ∧ j < idx + tasks.length := by
  intro tasks
  induction tasks with
  | nil =>
    intro idx c done errs j h
    rw [convertGo_nil] at h
    rcases h with h | h <;> simp at h
  | cons t rest ih =>
    intro idx c done errs j h
    have hshape := runTask_evs_shape alv N idx t c
    rcases hrt : runTask alv N idx t c with ⟨evs, c2, out⟩
    rw [hrt] at hshape
    have hblock : (Ev.spawn j ∈ evs ∨ Ev.mkProg j ∈ evs) → j = idx := by
      rintro (hm | hm)
      · rcases hshape _ hm with ⟨v, hv⟩ | h' | h' | h' | h' | h' | h'
        · exact absurd hv (by simp)
        · exact absurd h' (by simp)
        · injection h' with hji
        · exact absurd h' (by simp)
        · exact absurd h' (by simp)
        · exact absurd h' (by simp)
        · exact absurd h' (by simp)
      · rcases hshape _ hm with ⟨v, hv⟩ | h' | h' | h' | h' | h' | h'
        · exact absurd hv (by simp)
        · injection h' with hji
        · exact absurd h' (by simp)
        · exact absurd h' (by simp)
        · exact absurd h' (by simp)
        · exact absurd h' (by simp)
        · exact absurd h' (by simp)
    have hfin : ∀ rest2 idx2 c3 done2 errs2,
        (rest2 = rest ∧ idx2 = idx + 1) →
        (Ev.spawn j ∈ evs ++ (convertGo alv N rest2 idx2 c3 done2 errs2).evs ∨
          Ev.mkProg j ∈ evs ++ (convertGo alv N rest2 idx2 c3 done2 errs2).evs) →
        idx ≤ j ∧ j < idx + (t :: rest).length := by
      rintro rest2 idx2 c3 done2 errs2 ⟨rfl, rfl⟩ h
      simp only [List.length_cons]
      rcases h with h | h <;> rcases List.mem_append.mp h with h | h
      · have := hblock (Or.inl h)
        omega
      · have := ih (idx + 1) c3 done2 errs2 j (Or.inl h)
        omega
      · have := hblock (Or.inr h)
        omega
      · have := ih (idx + 1) c3 done2 errs2 j (Or.inr h)
        omega
    cases out with
    | missing =>
      rw [convertGo_cons_missing hrt] at h
      exact hfin rest (idx + 1) c2 done (errs ++ [missingMsg t]) ⟨rfl, rfl⟩ h
    | skipped =>
      rw [convertGo_cons_skipped hrt] at h
      exact hfin rest (idx + 1) c2 done errs ⟨rfl, rfl⟩ h
    | cancelled =>
      rw [convertGo_cons_cancelled hrt] at h
      have := hblock (by simpa using h)
      simp only [List.length_cons]
      omega
    | failed m =>
      rw [convertGo_cons_failed hrt] at h
      exact hfin rest (idx + 1) c2 done (errs ++ [m]) ⟨rfl, rfl⟩ h
    | ok =>
      rw [convertGo_cons_ok hrt] at h
      exact hfin rest (idx + 1) c2 (done + 1) errs ⟨rfl, rfl⟩ h

/-- Every progress file the batch loop creates is removed. -/
theorem convertGo_mkProg_rmProg (alv : ℕ → Bool) (N : ℕ) :
    ∀ (tasks : List TaskEnv) (idx c done : ℕ) (errs : List (List Char)) (j : ℕ),
      Ev.mkProg j ∈ (convertGo alv N tasks idx c done errs).evs →
      Ev.rmProg j ∈ (convertGo alv N tasks idx c done errs).evs := by
  intro tasks
  induction tasks with
  | nil =>
    intro idx c done errs j h
    rw [convertGo_nil] at h
    simp at h
  | cons t rest ih =>
    intro idx c done errs j h
    have hrm := runTask_mkProg_rmProg alv N idx t c j
    rcases hrt : runTask alv N idx t c with ⟨evs, c2, out⟩
    rw [hrt] at hrm
    cases out with
    | missing =>
      rw [convertGo_cons_missing hrt] at h ⊢
      rcases List.mem_append.mp h with h | h
      · exact List.mem_append.mpr (Or.inl (hrm h))
      · exact List.mem_append.mpr (Or.inr (ih _ _ _ _ j h))
    | skipped =>
      rw [convertGo_cons_skipped hrt] at h ⊢
      rcases List.mem_append.mp h with h | h
      · exact List.mem_append.mpr (Or.inl (hrm h))
      · exact List.mem_append.mpr (Or.inr (ih _ _ _ _ j h))
    | cancelled =>
      rw [convertGo_cons_cancelled hrt] at h ⊢
      exact hrm (by simpa using h)
    | failed m =>
      rw [convertGo_cons_failed hrt] at h ⊢
      rcases List.mem_append.mp h with h | h
      · exact List.mem_append.mpr (Or.inl (hrm h))
      · exact List.mem_append.mpr (Or.inr (ih _ _ _ _ j h))
    | ok =>
      rw [convertGo_cons_ok hrt] at h ⊢
      rcases List.mem_append.mp h with h | h
      · exact List.mem_append.mpr (Or.inl (hrm h))
      · exact List.mem_append.mpr (Or.inr (ih _ _ _ _ j h))

/-- The values the batch loop forwards are non-decreasing, and never below
the slice start of the first unprocessed task. -/
theorem convertGo_fvals (alv : ℕ → Bool) (N : ℕ) :
    ∀ (tasks : List TaskEnv) (idx c done : ℕ) (errs : List (List Char)),
      List.Pairwise (· ≤ ·) (fvals (convertGo alv N tasks idx c done errs).evs) ∧
      ∀ v ∈ fvals (convertGo alv N tasks idx c done errs).evs, sliceStart idx N ≤ v := by
  intro tasks
  induction tasks with
  | nil =>
    intro idx c done errs
    rw [convertGo_nil]
    simp [fvals]
  | cons t rest ih =>
    intro idx c done errs
    have hse : sliceStart idx N ≤ sliceStart (idx + 1) N :=
      sliceStart_mono (Nat.le_succ idx) N
    have hf := runTask_fvals alv N idx t c
    rcases hrt : runTask alv N idx t c with ⟨evs, c2, out⟩
    rw [hrt] at hf
    have hglue : ∀ rest2 idx2 c3 done2 errs2,
        (rest2 = rest ∧ idx2 = idx + 1) →
        List.Pairwise (· ≤ ·)
          (fvals (evs ++ (convertGo alv N rest2 idx2 c3 done2 errs2).evs)) ∧
        ∀ v ∈ fvals (evs ++ (convertGo alv N rest2 idx2 c3 done2 errs2).evs),
          sliceStart idx N ≤ v := by
      rintro rest2 idx2 c3 done2 errs2 ⟨rfl, rfl⟩
      rw [fvals_append]
      exact fvals_glue hse hf.1 (ih (idx + 1) c3 done2 errs2).1 hf.2
        (ih (idx + 1) c3 done2 errs2).2
    cases out with
    | missing =>
      rw [convertGo_cons_missing hrt]
      exact hglue rest (idx + 1) c2 done (errs ++ [missingMsg t]) ⟨rfl, rfl⟩
    | skipped =>
      rw [convertGo_cons_skipped hrt]
      exact hglue rest (idx + 1) c2 done errs ⟨rfl, rfl⟩
    | cancelled =>
      rw [convertGo_cons_cancelled hrt]
      exact ⟨hf.1, fun v hv => (hf.2 v hv).1⟩
    | failed m =>
      rw [convertGo_cons_failed hrt]
      exact hglue rest (idx + 1) c2 done (errs ++ [m]) ⟨rfl, rfl⟩
    | ok =>
      rw [convertGo_cons_ok hrt]
      exact hglue rest (idx + 1) c2 (done + 1) errs ⟨rfl, rfl⟩

/-- Processing `l ++ r` is processing `l`, then — unless `l` stopped the
batch — processing `r` from the state `l` left behind. -/
theorem convertGo_append (alv : ℕ → Bool) (N : ℕ) :
    ∀ (l r : List TaskEnv) (idx c done : ℕ) (errs : List (List Char)),
      convertGo alv N (l ++ r) idx c done errs =
        (if (convertGo alv N l idx c done errs).stopped then
          convertGo alv N l idx c done errs
        else
          ⟨(convertGo alv N l idx c done errs).evs ++
            (convertGo alv N r (idx + l.length) (convertGo alv N l idx c done errs).calls
              (convertGo alv N l idx c done errs).done
              (convertGo alv N l idx c done errs).errors).evs,
           (convertGo alv N r (idx + l.length) (convertGo alv N l idx c done errs).calls
              (convertGo alv N l idx c done errs).done
              (convertGo alv N l idx c done errs).errors).calls,
           (convertGo alv N r (idx + l.length) (convertGo alv N l idx c done errs).calls
              (convertGo alv N l idx c done errs).done
              (convertGo alv N l idx c done errs).errors).done,
           (convertGo alv N r (idx + l.length) (convertGo alv N l idx c done errs).calls
              (convertGo alv N l idx c done errs).done
              (convertGo alv N l idx c done errs).errors).errors,
           (convertGo alv N r (idx + l.length) (convertGo alv N l idx c done errs).calls
              (convertGo alv N l idx c done errs).done
              (convertGo alv N l idx c done errs).errors).stopped⟩) := by
  intro l
  induction l with
  | nil =>
    intro r idx c done errs
    rw [List.nil_append, convertGo_nil]
    simp
  | cons t l' ih =>
    intro r idx c done errs
    rcases hrt : runTask alv N idx t c with ⟨evs, c2, out⟩
    cases out with
    | missing =>
      rw [List.cons_append, convertGo_cons_missing hrt, convertGo_cons_missing hrt,
        ih r (idx + 1) c2 done (errs ++ [missingMsg t])]
      by_cases hs : (convertGo alv N l' (idx + 1) c2 done (errs ++ [missingMsg t])).stopped
      · simp only [hs, if_true]
      · simp only [hs, if_false, Bool.false_eq_true]
        simp only [List.length_cons]
        rw [show idx + (l'.length + 1) = idx + 1 + l'.length by omega]
        simp [List.append_assoc]
    | skipped =>
      rw [List.cons_append, convertGo_cons_skipped hrt, convertGo_cons_skipped hrt,
        ih r (idx + 1) c2 done errs]
      by_cases hs : (convertGo alv N l' (idx + 1) c2 done errs).stopped
      · simp only [hs, if_true]
      · simp only [hs, if_false, Bool.false_eq_true]
        simp only [List.length_cons]
        rw [show idx + (l'.length + 1) = idx + 1 + l'.length by omega]
        simp [List.append_assoc]
    | cancelled =>
      rw [List.cons_append, convertGo_cons_cancelled hrt, convertGo_cons_cancelled hrt]
      simp
    | failed m =>
      rw [List.cons_append, convertGo_cons_failed hrt, convertGo_cons_failed hrt,
        ih r (idx + 1) c2 done (errs ++ [m])]
      by_cases hs : (convertGo alv N l' (idx + 1) c2 done (errs ++ [m])).stopped
      · simp only [hs, if_true]
      · simp only [hs, if_false, Bool.false_eq_true]
        simp only [List.length_cons]
        rw [show idx + (l'.length + 1) = idx + 1 + l'.length by omega]
        simp [List.append_assoc]
    | ok =>
      rw [List.cons_append, convertGo_cons_ok hrt, convertGo_cons_ok hrt,
        ih r (idx + 1) c2 (done + 1) errs]
      by_cases hs : (convertGo alv N l' (idx + 1) c2 (done + 1) errs).stopped
      · simp only [hs, if_true]
      · simp only [hs, if_false, Bool.false_eq_true]
        simp only [List.length_cons]
        rw [show idx + (l'.length + 1) = idx + 1 + l'.length by omega]
        simp [List.append_assoc]

/-! ### Path facts (lines 383-388) -/

theorem takeWhile_append_all {p : Char → Bool} :
    ∀ (a : List Char) (c : Char) (b : List Char),
      (∀ x ∈ a, p x = true) → p c = false → (a ++ c :: b).takeWhile p = a := by
  intro a
  induction a with
  | nil =>
    intro c b _ hc
    simp [List.takeWhile_cons, hc]
  | cons x a' ih =>
    intro c b hall hc
    have hx : p x = true := hall x (by simp)
    simp only [List.cons_append, List.takeWhile_cons, hx, if_true]
    rw [ih c b (fun y hy => hall y (by simp [hy])) hc]

/-- A name of the shape `a ++ "." ++ w` with `a, w` nonempty and `w` dot-free
has CPython suffix `"." ++ w`. -/
theorem pySuffix_of_decomp {a w : List Char} (ha : a ≠ []) (hw : w ≠ [])
    (hwd : ∀ ch ∈ w, ch ≠ '.') : pySuffix (a ++ '.' :: w) = '.' :: w := by
  have hrev : (a ++ '.' :: w).reverse = w.reverse ++ '.' :: a.reverse := by
    simp
  have htw : (w.reverse ++ '.' :: a.reverse).takeWhile (· ≠ '.') = w.reverse := by
    apply takeWhile_append_all
    · intro x hx
      have : x ∈ w := List.mem_reverse.mp hx
      simp [hwd x this]
    · simp
  rw [pySuffix, hrev, htw]
  have h1 : w.reverse.length ≠ (w.reverse ++ '.' :: a.reverse).length := by
    simp
  have h2 : w.reverse.length ≠ 0 := by
    simpa using hw
  have h3 : w.reverse.length ≠ (w.reverse ++ '.' :: a.reverse).length - 1 := by
    simp only [List.length_append, List.length_cons, List.length_reverse]
    have : a.length ≠ 0 := by simpa using ha
    omega
  rw [if_neg h1, if_neg h2, if_neg h3, List.reverse_reverse]

/-- Under the same hypotheses the CPython stem is `a`. -/
theorem pyStem_of_decomp {a w : List Char} (ha : a ≠ []) (hw : w ≠ [])
    (hwd : ∀ ch ∈ w, ch ≠ '.') : pyStem (a ++ '.' :: w) = a := by
  rw [pyStem, pySuffix_of_decomp ha hw hwd]
  have hl : (a ++ '.' :: w).length - ('.' :: w).length = a.length := by
    simp
  rw [hl]
  exact List.take_left a ('.' :: w)

/-- Either a predicate holds of a whole list, or the list splits at the
first failing element. -/
theorem takeWhile_decomp {α : Type} (p : α → Bool) :
    ∀ (l : List α), l.takeWhile p = l ∨
      ∃ x rest, p x = false ∧ l = l.takeWhile p ++ x :: rest := by
  intro l
  induction l with
  | nil => exact Or.inl rfl
  | cons a l2 ih =>
    by_cases hpa : p a = true
    · rcases ih with h | ⟨x, rest, hx, hdec⟩
      · exact Or.inl (by simp [List.takeWhile_cons, hpa, h])
      · refine Or.inr ⟨x, rest, hx, ?_⟩
        conv_lhs => rw [show a :: l2 = a :: (l2.takeWhile p ++ x :: rest) by rw [← hdec]]
        simp [List.takeWhile_cons, hpa]
    · have hpa2 : p a = false := by
        cases h : p a
        · rfl
        · exact absurd h hpa
      exact Or.inr ⟨a, l2, hpa2, by simp [List.takeWhile_cons, hpa2]⟩

/-- CPython name decomposition: the suffix is empty, or the name splits as
`stem ++ suffix` with a nonempty, dot-free suffix tail and a nonempty stem. -/
theorem pySuffix_cases (name : List Char) :
    pySuffix name = [] ∨
    ∃ w, pySuffix name = '.' :: w ∧ w ≠ [] ∧ (∀ ch ∈ w, ch ≠ '.') ∧
      name = pyStem name ++ '.' :: w ∧ pyStem name ≠ [] := by
  by_cases hnil : pySuffix name = []
  · exact Or.inl hnil
  right
  rw [pySuffix] at hnil
  set r := name.reverse with hr
  set pre := r.takeWhile (· ≠ '.') with hpre
  by_cases h1 : pre.length = r.length
  · exact absurd (by rw [if_pos h1]) hnil
  by_cases h2 : pre.length = 0
  · exact absurd (by rw [if_neg h1, if_pos h2]) hnil
  by_cases h3 : pre.length = r.length - 1
  · exact absurd (by rw [if_neg h1, if_neg h2, if_pos h3]) hnil
  have hsfx : pySuffix name = '.' :: pre.reverse := by
    rw [pySuffix, ← hr, ← hpre, if_neg h1, if_neg h2, if_neg h3]
  rcases takeWhile_decomp ((· ≠ '.') : Char → Bool) r with hall | ⟨x, rest, hx, hdec⟩
  · exact absurd (by rw [hpre, hall]) h1
  have hxdot : x = '.' := by simpa using hx
  have hreq : r = pre ++ '.' :: rest := by
    rw [hxdot] at hdec
    rw [hpre]
    exact hdec
  have hlenr : r.length = pre.length + 1 + rest.length := by
    rw [hreq]
    simp
    omega
  have hrest : rest ≠ [] := by
    intro hre
    rw [hre] at hlenr
    simp at hlenr
    omega
  have hname : name = rest.reverse ++ '.' :: pre.reverse := by
    have hn : name = r.reverse := by rw [hr, List.reverse_reverse]
    rw [hn, hreq]
    simp
  have hstem : pyStem name = rest.reverse := by
    rw [pyStem, hsfx]
    have hlen : name.length - ('.' :: pre.reverse).length = rest.reverse.length := by
      rw [hname]
      simp
    rw [hlen, hname]
    exact List.take_left _ _
  refine ⟨pre.reverse, hsfx, by simpa using h2, ?_, ?_, ?_⟩
  · intro ch hch
    have hch2 : ch ∈ pre := List.mem_reverse.mp hch
    have := List.mem_takeWhile_imp (hpre ▸ hch2)
    simpa using this
  · rw [hstem, ← hname]
  · rw [hstem]
    simpa using hrest

/-- The chosen output name always differs from the input name.  The
hypotheses record the program's own preconditions: the file exists on disk
(so its name component is nonempty), and `main` only accepts the seven known
formats (for other suffix arguments CPython `with_suffix` could raise). -/
theorem outputName_ne_name (name fmt : List Char) (hn : name ≠ [])
    (hf : fmt ∈ formatKeys) : outputName fmt name ≠ name := by
  have hsuf_ne : targetSuffix fmt ≠ [] := by
    rw [targetSuffix]
    split <;> simp
  simp only [outputName]
  by_cases hcol : withSuffix name (targetSuffix fmt) = name
  · rw [if_pos hcol]
    rcases pySuffix_cases name with hemp | ⟨w, hsfx, hw, hwd, hdecomp, hstem⟩
    · exfalso
      have hst : pyStem name = name := by
        rw [pyStem, hemp]
        simp
      rw [withSuffix, hst] at hcol
      have hlen := congrArg List.length hcol
      simp at hlen
      exact hsuf_ne hlen
    · have h1 : pyStem name ++ targetSuffix fmt = pyStem name ++ '.' :: w := by
        rw [withSuffix] at hcol
        rw [hcol, ← hdecomp]
      have hsuf_eq : targetSuffix fmt = '.' :: w := List.append_cancel_left h1
      have hstem2 : withStem name (pyStem name ++ '_' :: fmt) =
          (pyStem name ++ '_' :: fmt) ++ '.' :: w := by
        rw [withStem, hsfx]
      have ha2 : pyStem name ++ '_' :: fmt ≠ [] := by simp
      have hstem3 : pyStem ((pyStem name ++ '_' :: fmt) ++ '.' :: w) =
          pyStem name ++ '_' :: fmt := pyStem_of_decomp ha2 hw hwd
      rw [hstem2, withSuffix, hstem3]
      intro heq
      have hlen := congrArg List.length heq
      have hlen2 := congrArg List.length hdecomp
      rw [hsuf_eq] at hlen
      simp at hlen hlen2
      omega
  · rw [if_neg hcol]
    exact hcol

/-! ### Top-level run facts -/

theorem convert_files_evs (alv : ℕ → Bool) (files : List TaskEnv) :
    (convert_files alv files).1 =
      (convertGo alv files.length files 0 0 0 []).evs ++
        (if (convertGo alv files.length files 0 0 0 []).stopped then [] else [Ev.close]) := rfl

theorem convert_files_result (alv : ℕ → Bool) (files : List TaskEnv) :
    (convert_files alv files).2 =
      ⟨(convertGo alv files.length files 0 0 0 []).done, files.length,
       (convertGo alv files.length files 0 0 0 []).errors,
       (convertGo alv files.length files 0 0 0 []).stopped⟩ := rfl

theorem convert_files_fvals (alv : ℕ → Bool) (files : List TaskEnv) :
    fvals (convert_files alv files).1 =
      fvals (convertGo alv files.length files 0 0 0 []).evs := by
  rw [convert_files_evs, fvals_append]
  split <;> simp [fvals]

theorem convertGo_done_le (alv : ℕ → Bool) (N : ℕ) :
    ∀ (tasks : List TaskEnv) (idx c done : ℕ) (errs : List (List Char)),
      (convertGo alv N tasks idx c done errs).done ≤ done + tasks.length := by
  intro tasks
  induction tasks with
  | nil =>
    intro idx c done errs
    rw [convertGo_nil]
    simp
  | cons t rest ih =>
    intro idx c done errs
    rcases hrt : runTask alv N idx t c with ⟨evs, c2, out⟩
    cases out with
    | missing =>
      rw [convertGo_cons_missing hrt]
      have := ih (idx + 1) c2 done (errs ++ [missingMsg t])
      simp only [List.length_cons]
      omega
    | skipped =>
      rw [convertGo_cons_skipped hrt]
      have := ih (idx + 1) c2 done errs
      simp only [List.length_cons]
      omega
    | cancelled =>
      rw [convertGo_cons_cancelled hrt]
      simp only [List.length_cons]
      omega
    | failed m =>
      rw [convertGo_cons_failed hrt]
      have := ih (idx + 1) c2 done (errs ++ [m])
      simp only [List.length_cons]
      omega
    | ok =>
      rw [convertGo_cons_ok hrt]
      have := ih (idx + 1) c2 (done + 1) errs
      simp only [List.length_cons]
      omega

/-! ### The claims -/

/-- C6: for every batch run, the display-surface close operation (`pbar_close`)
is invoked exactly once, whether the run ends by exhausting the task list
(line 482) or by cancellation (line 461) — never zero times, never twice. -/
theorem C6_close_exactly_once (alv : ℕ → Bool) (envs : List TaskEnv) :
    (convert_files alv envs).1.count Ev.close = 1 := by
  rw [convert_files_evs, List.count_append]
  have h := convertGo_close_count alv envs.length envs 0 0 0 []
  by_cases hst : (convertGo alv envs.length envs 0 0 0 []).stopped
  · rw [hst] at h
    rw [hst]
    simp only [if_true] at h ⊢
    simp [h]
  · simp only [hst] at h
    simp only [hst, Bool.false_eq_true, if_false] at h ⊢
    simp [h]

/-- C7: every task that reaches the running state (its progress-report file
was created, line 405) has that file removed when the task ends (line 452),
on every terminal path alike — success, encoder failure, and cancellation. -/
theorem C7_progress_file_removed (alv : ℕ → Bool) (envs : List TaskEnv) (i : ℕ)
    (h : Ev.mkProg i ∈ (convert_files alv envs).1) :
    Ev.rmProg i ∈ (convert_files alv envs).1 := by
  rw [convert_files_evs] at h ⊢
  rcases List.mem_append.mp h with h | h
  · exact List.mem_append.mpr
      (Or.inl (convertGo_mkProg_rmProg alv envs.length envs 0 0 0 [] i h))
  · exfalso
    split at h <;> simp at h

/-- C7 witness: a concrete one-task run creates and removes the file. -/
theorem C7_witness :
    Ev.rmProg 0 ∈ (convert_files (fun _ => true)
      [⟨"a.wav".data, true, true, some 10, [some 5000000], 0, []⟩]).1 :=
  C7_progress_file_removed (fun _ => true)
    [⟨"a.wav".data, true, true, some 10, [some 5000000], 0, []⟩] 0
    (by with_unfolding_all decide)

/-- C9: for every input path (nonempty name, as any on-disk file has) and
every target format accepted by `main`, the output path chosen on lines
383-388 — before any process is spawned — differs from the input path; when
substituting the target suffix would reproduce the input path, the path is
disambiguated by the fixed, input-determined rename `stem -> stem_{fmt}`.
Determinism holds by construction: `outputName` is a pure function of the
input name and format. -/
theorem C9_output_path_differs (name fmt : List Char) (hn : name ≠ [])
    (hf : fmt ∈ formatKeys) : outputName fmt name ≠ name :=
  outputName_ne_name name fmt hn hf

/-- C9 witness: `song.mp3` converted to mp3 becomes `song_mp3.mp3`. -/
theorem C9_witness : outputName "mp3".data "song.mp3".data ≠ "song.mp3".data :=
  C9_output_path_differs "song.mp3".data "mp3".data (by decide) (by decide)

/-- C10: a mid-task display update (and hence a cancellation check) happens on
a poll tick only if that tick computes a global percent strictly above the
last forwarded value; in particular a task whose duration probe failed, or
whose progress file never yields an elapsed-time record, sends no update for
the whole task, so its poll loop can never observe cancellation — whatever
the aliveness oracle says. -/
theorem C10_degraded_never_cancels (alv : ℕ → Bool) (N i c : ℕ) (t : TaskEnv)
    (sS sE last : ℤ)
    (h : t.duration = none ∨ ∀ p ∈ t.polls, p = none) :
    pollLoop alv i sS sE t.duration t.polls last c = ⟨[], last, c, false⟩ ∧
    (runTask alv N i t c).out ≠ Outcome.cancelled ∧
    ∀ (dur : Option ℚ) (polls : List (Option ℕ)) (last2 : ℤ) (c2 : ℕ) (v : ℤ),
      v ∈ fvals (pollLoop alv i sS sE dur polls last2 c2).evs → last2 < v := by
  refine ⟨?_, ?_, ?_⟩
  · rcases h with h | h
    · rw [h]
      exact pollLoop_none_dur alv i sS sE t.polls last c
    · exact pollLoop_none_polls alv i sS sE t.duration t.polls h last c
  · apply runTask_not_cancelled_of_poll
    rcases h with h | h
    · rw [taskPoll, h, pollLoop_none_dur]
    · rw [taskPoll, pollLoop_none_polls alv i (sliceStart i N) (sliceStart (i + 1) N)
        t.duration t.polls h]
  · intro dur polls last2 c2 v hv
    rcases (pollLoop_evs_spec alv i sS sE dur polls last2 c2).1 _
        (mem_fvals.mp hv) with h' | ⟨w, hw, hl, _⟩
    · exact absurd h' (by simp)
    · obtain rfl : v = w := by injection hw
      exact hl

/-- C10 witness: a task with progress records but no probed duration is never
cancelled even by a permanently dead display surface. -/
theorem C10_witness :
    pollLoop (fun _ => false) 0 0 100 none [some 5000000] 0 0 = ⟨[], 0, 0, false⟩ ∧
    (runTask (fun _ => false) 1 0
      ⟨"a.wav".data, true, true, none, [some 5000000], 0, []⟩ 0).out ≠
        Outcome.cancelled ∧
    ∀ (dur : Option ℚ) (polls : List (Option ℕ)) (last2 : ℤ) (c2 : ℕ) (v : ℤ),
      v ∈ fvals (pollLoop (fun _ => false) 0 0 100 dur polls last2 c2).evs →
        last2 < v :=
  C10_degraded_never_cancels (fun _ => false) 1 0 0
    ⟨"a.wav".data, true, true, none, [some 5000000], 0, []⟩ 0 100 0 (Or.inl rfl)

/-- C3 (counterexample): the claim says no `pbar_set` call ever repeats the
last forwarded value.  With two tasks that both convert successfully without
mid-task records, the forwarded sequence is `[0, 50, 50, 100]`: the `Done`
push of task 1 (slice_end = 50, line 480) is repeated by the unconditional
`Preparing` push of task 2 (slice_start = 50, line 403). -/
theorem C3_counterexample :
    fvals (convert_files (fun _ => true)
      [⟨"a.wav".data, true, true, none, [], 0, []⟩,
       ⟨"b.wav".data, true, true, none, [], 0, []⟩]).1 = [0, 50, 50, 100] ∧
    ¬ List.Pairwise (· < ·) (fvals (convert_files (fun _ => true)
      [⟨"a.wav".data, true, true, none, [], 0, []⟩,
       ⟨"b.wav".data, true, true, none, [], 0, []⟩]).1) := by
  have h1 : fvals (convert_files (fun _ => true)
      [⟨"a.wav".data, true, true, none, [], 0, []⟩,
       ⟨"b.wav".data, true, true, none, [], 0, []⟩]).1 = [0, 50, 50, 100] := by
    with_unfolding_all decide
  refine ⟨h1, ?_⟩
  rw [h1]
  intro h
  rcases List.pairwise_cons.mp h with ⟨_, h⟩
  rcases List.pairwise_cons.mp h with ⟨h50, _⟩
  have := h50 50 (by simp)
  omega

/-- C3 (amended): only the mid-task poll updates are filtered monotonically —
each is forwarded exactly when strictly above the last forwarded value; the
unconditional task-boundary pushes (`Preparing` at slice_start, `Done` at
slice_end) may repeat the last value but never lower it, so the whole
forwarded sequence is non-decreasing. -/
theorem C3_amended (alv : ℕ → Bool) (envs : List TaskEnv) :
    List.Pairwise (· ≤ ·) (fvals (convert_files alv envs).1) ∧
    ∀ (i : ℕ) (sS sE : ℤ) (dur : Option ℚ) (polls : List (Option ℕ))
      (last : ℤ) (c : ℕ),
      List.Pairwise (· < ·) (fvals (pollLoop alv i sS sE dur polls last c).evs) ∧
      ∀ v ∈ fvals (pollLoop alv i sS sE dur polls last c).evs, last < v := by
  constructor
  · rw [convert_files_fvals]
    exact (convertGo_fvals alv envs.length envs 0 0 0 []).1
  · intro i sS sE dur polls last c
    have hspec := pollLoop_evs_spec alv i sS sE dur polls last c
    refine ⟨hspec.2.1, ?_⟩
    intro v hv
    rcases hspec.1 _ (mem_fvals.mp hv) with h' | ⟨w, hw, hl, _⟩
    · exact absurd h' (by simp)
    · obtain rfl : v = w := by injection hw
      exact hl

/-- C3 witness: a concrete run is non-decreasing, and a concrete poll loop
forwards 50 only because it exceeds the previous value 0. -/
theorem C3_witness :
    List.Pairwise (· ≤ ·) (fvals (convert_files (fun _ => true)
      [⟨"a.wav".data, true, true, none, [], 0, []⟩]).1) ∧
    (0 : ℤ) < 50 :=
  ⟨(C3_amended (fun _ => true)
      [⟨"a.wav".data, true, true, none, [], 0, []⟩]).1,
   ((C3_amended (fun _ => true) []).2 0 0 100 (some 10) [some 5000000] 0 0).2 50
     (by with_unfolding_all decide)⟩

set_option maxRecDepth 40000 in
/-- C1 (counterexample): the claim asserts the slice boundary is computed with
exact integer floor arithmetic, `⌊i·100/N⌋`, for all N ≥ 1 and i < N.  The
code computes `int(i / N * 100)` in binary64 floating point (line 400).  At
N = 100, i = 29 the two differ: `29 / 100` rounds to the double
`0.29000000000000000000…98…` just below 29/100, multiplying by 100 gives the
double `29 − 2⁻⁴⁸ = 28.999999999999996`, and `int` truncates it to 28, while
`⌊29·100/100⌋ = 29`.  (CPython confirms: `int(29/100*100) == 28`.)  The
exact-rational model `sliceStart` gives 29, as the claim demands. -/
theorem C1_counterexample :
    sliceStartPy 29 100 = 28 ∧
    sliceStart 29 100 = 29 ∧
    (((29 * 100) / 100 : ℕ) : ℤ) = 29 ∧
    sliceStartPy 29 100 ≠ (((29 * 100) / 100 : ℕ) : ℤ) := by
  with_unfolding_all decide

/-- C1 (amended): the slice boundaries are computed by `int(i/N·100)` in
double precision, which can be one below the exact floor (N = 100, i = 29
gives 28); with exact rational arithmetic — faithful whenever the doubles
round the same way — task i's slice is exactly `[⌊i·100/N⌋, ⌊(i+1)·100/N⌋)`,
and while the task runs with fraction `f = filePct us d ∈ [0, 1]` the global
percent is `slice_start + ⌊f · (slice_end − slice_start)⌋`, exact integer
floor arithmetic. -/
theorem C1_amended (N i us : ℕ) (d : ℚ) (hN : 0 < N) (hd : 0 < d) :
    sliceStart i N = (((i * 100) / N : ℕ) : ℤ) ∧
    sliceStart (i + 1) N = ((((i + 1) * 100) / N : ℕ) : ℤ) ∧
    0 ≤ filePct us d ∧ filePct us d ≤ 1 ∧
    overallPct (sliceStart i N) (sliceStart (i + 1) N) us d =
      sliceStart i N +
        ⌊filePct us d * ((sliceStart (i + 1) N - sliceStart i N : ℤ) : ℚ)⌋ := by
  refine ⟨sliceStart_eq_floor i N, sliceStart_eq_floor (i + 1) N,
    filePct_nonneg us hd, filePct_le_one us d, ?_⟩
  have hse : sliceStart i N ≤ sliceStart (i + 1) N := sliceStart_mono (Nat.le_succ i) N
  have h0 : (0 : ℚ) ≤ ((sliceStart (i + 1) N - sliceStart i N : ℤ) : ℚ) := by
    exact_mod_cast sub_nonneg.mpr hse
  rw [overallPct, pyInt_of_nonneg (mul_nonneg (filePct_nonneg us hd) h0)]

/-- C1 witness, the spec's own scenario: 2 tasks, duration 10 s, task 1 at
elapsed 5 000 000 µs is 50% through its `[0, 50)` slice, so the computed
global percent is `0 + ⌊0.5·50⌋ = 25`. -/
theorem C1_witness :
    (sliceStart 0 2 = (((0 * 100) / 2 : ℕ) : ℤ) ∧
     sliceStart 1 2 = (((1 * 100) / 2 : ℕ) : ℤ) ∧
     0 ≤ filePct 5000000 10 ∧ filePct 5000000 10 ≤ 1 ∧
     overallPct (sliceStart 0 2) (sliceStart 1 2) 5000000 10 =
       sliceStart 0 2 +
         ⌊filePct 5000000 10 * ((sliceStart 1 2 - sliceStart 0 2 : ℤ) : ℚ)⌋) ∧
    overallPct (sliceStart 0 2) (sliceStart 1 2) 5000000 10 = 25 :=
  ⟨C1_amended 2 0 5000000 10 (by norm_num) (by norm_num),
   by with_unfolding_all decide⟩

/-- C2 (counterexample): a one-task batch whose encoder exits non-zero
completes without cancellation, yet the only value ever passed to `pbar_set`
is the initial slice start 0 — the final forwarded value is 0, not 100,
because the `Done` push of line 480 only happens on exit code 0. -/
theorem C2_counterexample :
    (convert_files (fun _ => true)
      [⟨"b.wav".data, true, true, none, [], 1, "x".data⟩]).2.cancelled = false ∧
    fvals (convert_files (fun _ => true)
      [⟨"b.wav".data, true, true, none, [], 1, "x".data⟩]).1 = [0] ∧
    (fvals (convert_files (fun _ => true)
      [⟨"b.wav".data, true, true, none, [], 1, "x".data⟩]).1).getLast? ≠ some 100 := by
  with_unfolding_all decide

/-- C2 (amended): for every batch that runs to completion without
cancellation, the sequence of percent values passed to `pbar_set` is
non-decreasing; and the final value forwarded is 100 provided the batch's
last task actually converts (input present, warning accepted, encoder exit
code 0) — if the last task is skipped, missing, or fails, the final
forwarded value is whatever was forwarded before it. -/
theorem C2_amended (alv : ℕ → Bool) (envs : List TaskEnv)
    (hnc : (convert_files alv envs).2.cancelled = false) :
    List.Pairwise (· ≤ ·) (fvals (convert_files alv envs).1) ∧
    ∀ (l : List TaskEnv) (t : TaskEnv), envs = l ++ [t] →
      t.present = true → t.accept = true → t.exitCode = 0 →
      (fvals (convert_files alv envs).1).getLast? = some 100 := by
  constructor
  · rw [convert_files_fvals]
    exact (convertGo_fvals alv envs.length envs 0 0 0 []).1
  · rintro l t rfl hp ha he
    have hNl : (l ++ [t]).length = l.length + 1 := by simp
    have hstop : (convertGo alv (l ++ [t]).length (l ++ [t]) 0 0 0 []).stopped = false :=
      hnc
    have happ := convertGo_append alv (l ++ [t]).length l [t] 0 0 0 []
    simp only [Nat.zero_add] at happ
    by_cases hs1s : (convertGo alv (l ++ [t]).length l 0 0 0 []).stopped = true
    · rw [happ, if_pos hs1s] at hstop
      rw [hs1s] at hstop
      exact absurd hstop (by simp)
    have hcond : ¬ (convertGo alv (l ++ [t]).length l 0 0 0 []).stopped = true := hs1s
    have hcanc : (taskPoll alv (l ++ [t]).length l.length t
        (convertGo alv (l ++ [t]).length l 0 0 0 []).calls).cancelled = false := by
      by_contra hcc
      rw [Bool.not_eq_false] at hcc
      have hrtc : runTask alv (l ++ [t]).length l.length t
          (convertGo alv (l ++ [t]).length l 0 0 0 []).calls =
          ⟨Ev.setVal (sliceStart l.length (l ++ [t]).length) :: Ev.mkProg l.length ::
            Ev.spawn l.length ::
            ((taskPoll alv (l ++ [t]).length l.length t
                (convertGo alv (l ++ [t]).length l 0 0 0 []).calls).evs ++
              [Ev.rmProg l.length, Ev.rmOut l.length, Ev.close]),
           (taskPoll alv (l ++ [t]).length l.length t
             (convertGo alv (l ++ [t]).length l 0 0 0 []).calls).calls,
           .cancelled⟩ := by
        rw [runTask_eq hp ha, if_pos hcc]
      have hs2 := convertGo_cons_cancelled hrtc ([] : List TaskEnv)
        (convertGo alv (l ++ [t]).length l 0 0 0 []).done
        (convertGo alv (l ++ [t]).length l 0 0 0 []).errors
      rw [happ, if_neg hcond, hs2] at hstop
      simp at hstop
    have hrt := runTask_ok_eq hp ha he alv (l ++ [t]).length l.length
      (convertGo alv (l ++ [t]).length l 0 0 0 []).calls hcanc
    have hs2 := convertGo_cons_ok hrt ([] : List TaskEnv)
      (convertGo alv (l ++ [t]).length l 0 0 0 []).done
      (convertGo alv (l ++ [t]).length l 0 0 0 []).errors
    have hevs : (convertGo alv (l ++ [t]).length (l ++ [t]) 0 0 0 []).evs =
        (convertGo alv (l ++ [t]).length l 0 0 0 []).evs ++
          (convertGo alv (l ++ [t]).length [t] l.length
            (convertGo alv (l ++ [t]).length l 0 0 0 []).calls
            (convertGo alv (l ++ [t]).length l 0 0 0 []).done
            (convertGo alv (l ++ [t]).length l 0 0 0 []).errors).evs := by
      rw [happ, if_neg hcond]
    rw [convert_files_evs, hstop, hevs, hs2]
    simp only [convertGo_nil, List.append_nil, Bool.false_eq_true, if_false]
    simp only [fvals_append, fvals_cons_setVal, fvals_cons_mkProg, fvals_cons_spawn,
      fvals_cons_rmProg, fvals_cons_close, fvals_nil, List.append_nil]
    have h100 : sliceStart (l.length + 1) (l ++ [t]).length = 100 := by
      rw [hNl]
      exact sliceStart_self (Nat.succ_pos _)
    rw [h100]
    rw [show fvals (convertGo alv (l ++ [t]).length l 0 0 0 []).evs ++
        (sliceStart l.length (l ++ [t]).length ::
          (fvals (taskPoll alv (l ++ [t]).length l.length t
            (convertGo alv (l ++ [t]).length l 0 0 0 []).calls).evs ++ [(100 : ℤ)])) =
        (fvals (convertGo alv (l ++ [t]).length l 0 0 0 []).evs ++
          sliceStart l.length (l ++ [t]).length ::
            fvals (taskPoll alv (l ++ [t]).length l.length t
              (convertGo alv (l ++ [t]).length l 0 0 0 []).calls).evs) ++ [(100 : ℤ)]
      by simp]
    exact List.getLast?_concat _

/-- C2 witness: one successful task; the forwarded sequence `[0, 50, 100]` is
non-decreasing and ends at 100. -/
theorem C2_witness :
    List.Pairwise (· ≤ ·) (fvals (convert_files (fun _ => true)
      [⟨"a.wav".data, true, true, some 10, [some 5000000], 0, []⟩]).1) ∧
    (fvals (convert_files (fun _ => true)
      [⟨"a.wav".data, true, true, some 10, [some 5000000], 0, []⟩]).1).getLast? =
      some 100 :=
  ⟨(C2_amended (fun _ => true)
      [⟨"a.wav".data, true, true, some 10, [some 5000000], 0, []⟩]
      (by with_unfolding_all decide)).1,
   (C2_amended (fun _ => true)
      [⟨"a.wav".data, true, true, some 10, [some 5000000], 0, []⟩]
      (by with_unfolding_all decide)).2 []
      ⟨"a.wav".data, true, true, some 10, [some 5000000], 0, []⟩ rfl rfl rfl rfl⟩

/-- C4 (counterexample): the claim says cancellation during task k (1-indexed)
always yields done = k − 1.  Run two tasks where task 1 fails (exit code 1)
and the dialog dies during task 2: cancellation happens during task k = 2,
but done = 0, not 1 — `done` counts successes, not prior tasks. -/
theorem C4_counterexample :
    (convert_files (fun c => !(c == 2))
      [⟨"b.wav".data, true, true, none, [], 1, "x".data⟩,
       ⟨"c.wav".data, true, true, some 10, [some 5000000], 0, []⟩]).2.cancelled = true ∧
    Ev.kill 1 ∈ (convert_files (fun c => !(c == 2))
      [⟨"b.wav".data, true, true, none, [], 1, "x".data⟩,
       ⟨"c.wav".data, true, true, some 10, [some 5000000], 0, []⟩]).1 ∧
    (convert_files (fun c => !(c == 2))
      [⟨"b.wav".data, true, true, none, [], 1, "x".data⟩,
       ⟨"c.wav".data, true, true, some 10, [some 5000000], 0, []⟩]).2.done = 0 ∧
    (convert_files (fun c => !(c == 2))
      [⟨"b.wav".data, true, true, none, [], 1, "x".data⟩,
       ⟨"c.wav".data, true, true, some 10, [some 5000000], 0, []⟩]).2.done ≠ 2 - 1 := by
  with_unfolding_all decide

/-- C4 (amended): when a mid-task display update of the task at position k−1
(0-indexed `l.length`) reports not-alive, the encoder is killed immediately
(`proc.kill()`, no graceful handshake), the task's partial output file is
deleted, no later task is ever started (spawn events stop at this task), and
the batch result is {done = number of tasks before it that completed
successfully, cancelled = true}. -/
theorem C4_amended (alv : ℕ → Bool) (l r : List TaskEnv) (t : TaskEnv)
    (hs : (convertGo alv (l ++ t :: r).length l 0 0 0 []).stopped = false)
    (hc : (runTask alv (l ++ t :: r).length l.length t
        (convertGo alv (l ++ t :: r).length l 0 0 0 []).calls).out = Outcome.cancelled) :
    (convert_files alv (l ++ t :: r)).2.cancelled = true ∧
    (convert_files alv (l ++ t :: r)).2.done =
      (convertGo alv (l ++ t :: r).length l 0 0 0 []).done ∧
    (convert_files alv (l ++ t :: r)).2.done ≤ l.length ∧
    Ev.kill l.length ∈ (convert_files alv (l ++ t :: r)).1 ∧
    Ev.rmOut l.length ∈ (convert_files alv (l ++ t :: r)).1 ∧
    ∀ j, Ev.spawn j ∈ (convert_files alv (l ++ t :: r)).1 → j ≤ l.length := by
  have hkill := runTask_cancelled_evs alv (l ++ t :: r).length l.length t
    (convertGo alv (l ++ t :: r).length l 0 0 0 []).calls hc
  have hshape := runTask_evs_shape alv (l ++ t :: r).length l.length t
    (convertGo alv (l ++ t :: r).length l 0 0 0 []).calls
  have happ := convertGo_append alv (l ++ t :: r).length l (t :: r) 0 0 0 []
  simp only [Nat.zero_add] at happ
  have hcond : ¬ (convertGo alv (l ++ t :: r).length l 0 0 0 []).stopped = true := by
    rw [hs]
    simp
  rcases hrt : runTask alv (l ++ t :: r).length l.length t
      (convertGo alv (l ++ t :: r).length l 0 0 0 []).calls with ⟨evst, c2, out⟩
  have hout : out = Outcome.cancelled := by
    rw [hrt] at hc
    exact hc
  subst hout
  have hs2 := convertGo_cons_cancelled hrt r
    (convertGo alv (l ++ t :: r).length l 0 0 0 []).done
    (convertGo alv (l ++ t :: r).length l 0 0 0 []).errors
  have hgo : convertGo alv (l ++ t :: r).length (l ++ t :: r) 0 0 0 [] =
      ⟨(convertGo alv (l ++ t :: r).length l 0 0 0 []).evs ++ evst, c2,
       (convertGo alv (l ++ t :: r).length l 0 0 0 []).done,
       (convertGo alv (l ++ t :: r).length l 0 0 0 []).errors, true⟩ := by
    rw [happ, if_neg hcond, hs2]
  rw [hrt] at hkill hshape
  have hevs : (convert_files alv (l ++ t :: r)).1 =
      (convertGo alv (l ++ t :: r).length l 0 0 0 []).evs ++ evst := by
    rw [convert_files_evs, hgo]
    simp
  refine ⟨?_, ?_, ?_, ?_, ?_, ?_⟩
  · rw [convert_files_result, hgo]
  · rw [convert_files_result, hgo]
  · rw [convert_files_result, hgo]
    have := convertGo_done_le alv (l ++ t :: r).length l 0 0 0 []
    simpa using this
  · rw [hevs]
    exact List.mem_append.mpr (Or.inr hkill.1)
  · rw [hevs]
    exact List.mem_append.mpr (Or.inr hkill.2.1)
  · intro j hj
    rw [hevs] at hj
    rcases List.mem_append.mp hj with hj | hj
    · have := convertGo_spawn_mkProg_range alv (l ++ t :: r).length l 0 0 0 [] j
        (Or.inl hj)
      omega
    · rcases hshape _ hj with ⟨v, hv⟩ | h' | h' | h' | h' | h' | h'
      · exact absurd hv (by simp)
      · exact absurd h' (by simp)
      · injection h' with hji
        omega
      · exact absurd h' (by simp)
      · exact absurd h' (by simp)
      · exact absurd h' (by simp)
      · exact absurd h' (by simp)

/-- C4 witness: a single task cancelled on its first poll tick, with one task
queued after it: done = 0, cancelled, killed, partial output removed, the
queued task never spawned. -/
theorem C4_witness :
    (convert_files (fun c => !(c == 1))
      [⟨"c.wav".data, true, true, some 10, [some 5000000], 0, []⟩,
       ⟨"d.wav".data, true, true, some 10, [some 5000000], 0, []⟩]).2.cancelled = true ∧
    (convert_files (fun c => !(c == 1))
      [⟨"c.wav".data, true, true, some 10, [some 5000000], 0, []⟩,
       ⟨"d.wav".data, true, true, some 10, [some 5000000], 0, []⟩]).2.done =
      (convertGo (fun c => !(c == 1))
        ([] ++ (⟨"c.wav".data, true, true, some 10, [some 5000000], 0, []⟩ : TaskEnv) ::
          [⟨"d.wav".data, true, true, some 10, [some 5000000], 0, []⟩]).length
        [] 0 0 0 []).done ∧
    (convert_files (fun c => !(c == 1))
      [⟨"c.wav".data, true, true, some 10, [some 5000000], 0, []⟩,
       ⟨"d.wav".data, true, true, some 10, [some 5000000], 0, []⟩]).2.done ≤
      ([] : List TaskEnv).length ∧
    Ev.kill ([] : List TaskEnv).length ∈ (convert_files (fun c => !(c == 1))
      [⟨"c.wav".data, true, true, some 10, [some 5000000], 0, []⟩,
       ⟨"d.wav".data, true, true, some 10, [some 5000000], 0, []⟩]).1 ∧
    Ev.rmOut ([] : List TaskEnv).length ∈ (convert_files (fun c => !(c == 1))
      [⟨"c.wav".data, true, true, some 10, [some 5000000], 0, []⟩,
       ⟨"d.wav".data, true, true, some 10, [some 5000000], 0, []⟩]).1 ∧
    ∀ j, Ev.spawn j ∈ (convert_files (fun c => !(c == 1))
      [⟨"c.wav".data, true, true, some 10, [some 5000000], 0, []⟩,
       ⟨"d.wav".data, true, true, some 10, [some 5000000], 0, []⟩]).1 →
      j ≤ ([] : List TaskEnv).length :=
  C4_amended (fun c => !(c == 1)) []
    [⟨"d.wav".data, true, true, some 10, [some 5000000], 0, []⟩]
    ⟨"c.wav".data, true, true, some 10, [some 5000000], 0, []⟩
    (by with_unfolding_all decide) (by with_unfolding_all decide)

set_option maxRecDepth 100000 in
/-- C5 (counterexample): the claim says the recorded diagnostic excerpt holds
at most 400 bytes of the process's diagnostic output.  The code slices the
decoded text to 400 characters (`[:400]`, line 472), not bytes: an stderr of
201 two-byte characters (402 bytes of diagnostic output) passes the slice
untruncated, so the recorded excerpt covers 402 > 400 bytes. -/
theorem C5_counterexample :
    (convert_files (fun _ => true)
      [⟨"b.wav".data, true, true, none, [], 1, List.replicate 201 'ü'⟩]).2.errors =
      ["b.wav".data ++ ':' :: '\n' :: List.replicate 201 'ü'] ∧
    (List.replicate 201 'ü').take 400 = List.replicate 201 'ü' ∧
    utf8Len (List.replicate 201 'ü') = 402 := by
  with_unfolding_all decide

/-- C5 (amended): for every task whose encoder exits non-zero (and whose poll
loop saw no cancellation), the batch records it as failed with the entry
`name ++ ":\n" ++` the first at-most-400 *characters* of the decoded
diagnostic output (which can exceed 400 bytes for non-ASCII text), deletes
its partial output file, leaves done_count unchanged, and proceeds to the
remaining tasks from the same accumulated state. -/
theorem C5_amended (alv : ℕ → Bool) (l r : List TaskEnv) (t : TaskEnv)
    (hp : t.present = true) (ha : t.accept = true) (he : t.exitCode ≠ 0)
    (hs : (convertGo alv (l ++ t :: r).length l 0 0 0 []).stopped = false)
    (hpoll : (taskPoll alv (l ++ t :: r).length l.length t
        (convertGo alv (l ++ t :: r).length l 0 0 0 []).calls).cancelled = false) :
    convertGo alv (l ++ t :: r).length (l ++ t :: r) 0 0 0 [] =
      ⟨(convertGo alv (l ++ t :: r).length l 0 0 0 []).evs ++
        (runTask alv (l ++ t :: r).length l.length t
          (convertGo alv (l ++ t :: r).length l 0 0 0 []).calls).evs ++
        (convertGo alv (l ++ t :: r).length r (l.length + 1)
          (runTask alv (l ++ t :: r).length l.length t
            (convertGo alv (l ++ t :: r).length l 0 0 0 []).calls).calls
          (convertGo alv (l ++ t :: r).length l 0 0 0 []).done
          ((convertGo alv (l ++ t :: r).length l 0 0 0 []).errors ++ [failMsg t])).evs,
       (convertGo alv (l ++ t :: r).length r (l.length + 1)
          (runTask alv (l ++ t :: r).length l.length t
            (convertGo alv (l ++ t :: r).length l 0 0 0 []).calls).calls
          (convertGo alv (l ++ t :: r).length l 0 0 0 []).done
          ((convertGo alv (l ++ t :: r).length l 0 0 0 []).errors ++ [failMsg t])).calls,
       (convertGo alv (l ++ t :: r).length r (l.length + 1)
          (runTask alv (l ++ t :: r).length l.length t
            (convertGo alv (l ++ t :: r).length l 0 0 0 []).calls).calls
          (convertGo alv (l ++ t :: r).length l 0 0 0 []).done
          ((convertGo alv (l ++ t :: r).length l 0 0 0 []).errors ++ [failMsg t])).done,
       (convertGo alv (l ++ t :: r).length r (l.length + 1)
          (runTask alv (l ++ t :: r).length l.length t
            (convertGo alv (l ++ t :: r).length l 0 0 0 []).calls).calls
          (convertGo alv (l ++ t :: r).length l 0 0 0 []).done
          ((convertGo alv (l ++ t :: r).length l 0 0 0 []).errors ++ [failMsg t])).errors,
       (convertGo alv (l ++ t :: r).length r (l.length + 1)
          (runTask alv (l ++ t :: r).length l.length t
            (convertGo alv (l ++ t :: r).length l 0 0 0 []).calls).calls
          (convertGo alv (l ++ t :: r).length l 0 0 0 []).done
          ((convertGo alv (l ++ t :: r).length l 0 0 0 []).errors ++ [failMsg t])).stopped⟩ ∧
    failMsg t = t.name ++ ':' :: '\n' :: t.stderr.take 400 ∧
    (t.stderr.take 400).length ≤ 400 ∧
    Ev.rmOut l.length ∈ (convert_files alv (l ++ t :: r)).1 ∧
    failMsg t ∈ (convert_files alv (l ++ t :: r)).2.errors := by
  have hrt := runTask_failed_eq hp ha he alv (l ++ t :: r).length l.length
    (convertGo alv (l ++ t :: r).length l 0 0 0 []).calls hpoll
  have happ := convertGo_append alv (l ++ t :: r).length l (t :: r) 0 0 0 []
  simp only [Nat.zero_add] at happ
  have hcond : ¬ (convertGo alv (l ++ t :: r).length l 0 0 0 []).stopped = true := by
    rw [hs]
    simp
  have hs2 := convertGo_cons_failed hrt r
    (convertGo alv (l ++ t :: r).length l 0 0 0 []).done
    (convertGo alv (l ++ t :: r).length l 0 0 0 []).errors
  have hgo : convertGo alv (l ++ t :: r).length (l ++ t :: r) 0 0 0 [] =
      ⟨(convertGo alv (l ++ t :: r).length l 0 0 0 []).evs ++
        ((runTask alv (l ++ t :: r).length l.length t
          (convertGo alv (l ++ t :: r).length l 0 0 0 []).calls).evs ++
          (convertGo alv (l ++ t :: r).length r (l.length + 1)
            (runTask alv (l ++ t :: r).length l.length t
              (convertGo alv (l ++ t :: r).length l 0 0 0 []).calls).calls
            (convertGo alv (l ++ t :: r).length l 0 0 0 []).done
            ((convertGo alv (l ++ t :: r).length l 0 0 0 []).errors ++ [failMsg t])).evs),
       (convertGo alv (l ++ t :: r).length r (l.length + 1)
          (runTask alv (l ++ t :: r).length l.length t
            (convertGo alv (l ++ t :: r).length l 0 0 0 []).calls).calls
          (convertGo alv (l ++ t :: r).length l 0 0 0 []).done
          ((convertGo alv (l ++ t :: r).length l 0 0 0 []).errors ++ [failMsg t])).calls,
       (convertGo alv (l ++ t :: r).length r (l.length + 1)
          (runTask alv (l ++ t :: r).length l.length t
            (convertGo alv (l ++ t :: r).length l 0 0 0 []).calls).calls
          (convertGo alv (l ++ t :: r).length l 0 0 0 []).done
          ((convertGo alv (l ++ t :: r).length l 0 0 0 []).errors ++ [failMsg t])).done,
       (convertGo alv (l ++ t :: r).length r (l.length + 1)
          (runTask alv (l ++ t :: r).length l.length t
            (convertGo alv (l ++ t :: r).length l 0 0 0 []).calls).calls
          (convertGo alv (l ++ t :: r).length l 0 0 0 []).done
          ((convertGo alv (l ++ t :: r).length l 0 0 0 []).errors ++ [failMsg t])).errors,
       (convertGo alv (l ++ t :: r).length r (l.length + 1)
          (runTask alv (l ++ t :: r).length l.length t
            (convertGo alv (l ++ t :: r).length l 0 0 0 []).calls).calls
          (convertGo alv (l ++ t :: r).length l 0 0 0 []).done
          ((convertGo alv (l ++ t :: r).length l 0 0 0 []).errors ++ [failMsg t])).stopped⟩ := by
    rw [happ, if_neg hcond, hs2]
    rw [hrt]
  refine ⟨by rw [hgo]; simp [List.append_assoc], rfl, by simp, ?_, ?_⟩
  · rw [convert_files_evs, hgo]
    refine List.mem_append.mpr (Or.inl ?_)
    refine List.mem_append.mpr (Or.inr (List.mem_append.mpr (Or.inl ?_)))
    rw [hrt]
    simp [List.mem_cons, List.mem_append]
  · rw [convert_files_result, hgo]
    obtain ⟨es, hes⟩ := convertGo_errors_extend alv (l ++ t :: r).length r (l.length + 1)
      (runTask alv (l ++ t :: r).length l.length t
        (convertGo alv (l ++ t :: r).length l 0 0 0 []).calls).calls
      (convertGo alv (l ++ t :: r).length l 0 0 0 []).done
      ((convertGo alv (l ++ t :: r).length l 0 0 0 []).errors ++ [failMsg t])
    rw [hes]
    simp

/-- C5 witness: a concrete failing task with a short stderr. -/
theorem C5_witness :
    (convertGo (fun _ => true)
        ([] ++ (⟨"b.wav".data, true, true, none, [], 1, "x".data⟩ : TaskEnv) :: []).length
        ([] ++ (⟨"b.wav".data, true, true, none, [], 1, "x".data⟩ : TaskEnv) :: [])
        0 0 0 []).errors =
      (convertGo (fun _ => true)
        ([] ++ (⟨"b.wav".data, true, true, none, [], 1, "x".data⟩ : TaskEnv) :: []).length
        [] (([] : List TaskEnv).length + 1)
        (runTask (fun _ => true)
          ([] ++ (⟨"b.wav".data, true, true, none, [], 1, "x".data⟩ : TaskEnv) :: []).length
          ([] : List TaskEnv).length
          ⟨"b.wav".data, true, true, none, [], 1, "x".data⟩
          (convertGo (fun _ => true)
            ([] ++ (⟨"b.wav".data, true, true, none, [], 1, "x".data⟩ : TaskEnv) :: []).length
            [] 0 0 0 []).calls).calls
        (convertGo (fun _ => true)
          ([] ++ (⟨"b.wav".data, true, true, none, [], 1, "x".data⟩ : TaskEnv) :: []).length
          [] 0 0 0 []).done
        ((convertGo (fun _ => true)
          ([] ++ (⟨"b.wav".data, true, true, none, [], 1, "x".data⟩ : TaskEnv) :: []).length
          [] 0 0 0 []).errors ++
          [failMsg ⟨"b.wav".data, true, true, none, [], 1, "x".data⟩])).errors ∧
    Ev.rmOut 0 ∈ (convert_files (fun _ => true)
      [⟨"b.wav".data, true, true, none, [], 1, "x".data⟩]).1 ∧
    failMsg (⟨"b.wav".data, true, true, none, [], 1, "x".data⟩ : TaskEnv) ∈
      (convert_files (fun _ => true)
        [⟨"b.wav".data, true, true, none, [], 1, "x".data⟩]).2.errors := by
  have h := C5_amended (fun _ => true) [] []
    ⟨"b.wav".data, true, true, none, [], 1, "x".data⟩
    rfl rfl (by decide) (by with_unfolding_all decide) (by with_unfolding_all decide)
  refine ⟨?_, h.2.2.2.1, h.2.2.2.2⟩
  rw [h.1]

/-- C8: a task whose input path does not exist gets an error entry recorded,
never spawns an encoder, never creates a progress-report file, and the batch
continues with the next task from the same accumulated state. -/
theorem C8_missing_input (alv : ℕ → Bool) (l r : List TaskEnv) (t : TaskEnv)
    (hp : t.present = false)
    (hs : (convertGo alv (l ++ t :: r).length l 0 0 0 []).stopped = false) :
    convertGo alv (l ++ t :: r).length (l ++ t :: r) 0 0 0 [] =
      ⟨(convertGo alv (l ++ t :: r).length l 0 0 0 []).evs ++
        (convertGo alv (l ++ t :: r).length r (l.length + 1)
          (convertGo alv (l ++ t :: r).length l 0 0 0 []).calls
          (convertGo alv (l ++ t :: r).length l 0 0 0 []).done
          ((convertGo alv (l ++ t :: r).length l 0 0 0 []).errors ++ [missingMsg t])).evs,
       (convertGo alv (l ++ t :: r).length r (l.length + 1)
          (convertGo alv (l ++ t :: r).length l 0 0 0 []).calls
          (convertGo alv (l ++ t :: r).length l 0 0 0 []).done
          ((convertGo alv (l ++ t :: r).length l 0 0 0 []).errors ++ [missingMsg t])).calls,
       (convertGo alv (l ++ t :: r).length r (l.length + 1)
          (convertGo alv (l ++ t :: r).length l 0 0 0 []).calls
          (convertGo alv (l ++ t :: r).length l 0 0 0 []).done
          ((convertGo alv (l ++ t :: r).length l 0 0 0 []).errors ++ [missingMsg t])).done,
       (convertGo alv (l ++ t :: r).length r (l.length + 1)
          (convertGo alv (l ++ t :: r).length l 0 0 0 []).calls
          (convertGo alv (l ++ t :: r).length l 0 0 0 []).done
          ((convertGo alv (l ++ t :: r).length l 0 0 0 []).errors ++ [missingMsg t])).errors,
       (convertGo alv (l ++ t :: r).length r (l.length + 1)
          (convertGo alv (l ++ t :: r).length l 0 0 0 []).calls
          (convertGo alv (l ++ t :: r).length l 0 0 0 []).done
          ((convertGo alv (l ++ t :: r).length l 0 0 0 []).errors ++ [missingMsg t])).stopped⟩ ∧
    missingMsg t ∈ (convert_files alv (l ++ t :: r)).2.errors ∧
    Ev.spawn l.length ∉ (convert_files alv (l ++ t :: r)).1 ∧
    Ev.mkProg l.length ∉ (convert_files alv (l ++ t :: r)).1 := by
  have hrt := runTask_missing hp alv (l ++ t :: r).length l.length
    (convertGo alv (l ++ t :: r).length l 0 0 0 []).calls
  have happ := convertGo_append alv (l ++ t :: r).length l (t :: r) 0 0 0 []
  simp only [Nat.zero_add] at happ
  have hcond : ¬ (convertGo alv (l ++ t :: r).length l 0 0 0 []).stopped = true := by
    rw [hs]
    simp
  have hs2 := convertGo_cons_missing hrt r
    (convertGo alv (l ++ t :: r).length l 0 0 0 []).done
    (convertGo alv (l ++ t :: r).length l 0 0 0 []).errors
  have hgo := happ
  rw [if_neg hcond, hs2] at hgo
  simp only [List.nil_append] at hgo
  refine ⟨by rw [hgo], ?_, ?_, ?_⟩
  · rw [convert_files_result, hgo]
    obtain ⟨es, hes⟩ := convertGo_errors_extend alv (l ++ t :: r).length r (l.length + 1)
      (convertGo alv (l ++ t :: r).length l 0 0 0 []).calls
      (convertGo alv (l ++ t :: r).length l 0 0 0 []).done
      ((convertGo alv (l ++ t :: r).length l 0 0 0 []).errors ++ [missingMsg t])
    rw [hes]
    simp
  · intro hsp
    rw [convert_files_evs, hgo] at hsp
    rcases List.mem_append.mp hsp with hsp | hsp
    · rcases List.mem_append.mp hsp with hsp | hsp
      · have := convertGo_spawn_mkProg_range alv (l ++ t :: r).length l 0 0 0 []
          l.length (Or.inl hsp)
        omega
      · have := convertGo_spawn_mkProg_range alv (l ++ t :: r).length r (l.length + 1)
          (convertGo alv (l ++ t :: r).length l 0 0 0 []).calls
          (convertGo alv (l ++ t :: r).length l 0 0 0 []).done
          ((convertGo alv (l ++ t :: r).length l 0 0 0 []).errors ++ [missingMsg t])
          l.length (Or.inl hsp)
        omega
    · split at hsp <;> simp at hsp
  · intro hsp
    rw [convert_files_evs, hgo] at hsp
    rcases List.mem_append.mp hsp with hsp | hsp
    · rcases List.mem_append.mp hsp with hsp | hsp
      · have := convertGo_spawn_mkProg_range alv (l ++ t :: r).length l 0 0 0 []
          l.length (Or.inr hsp)
        omega
      · have := convertGo_spawn_mkProg_range alv (l ++ t :: r).length r (l.length + 1)
          (convertGo alv (l ++ t :: r).length l 0 0 0 []).calls
          (convertGo alv (l ++ t :: r).length l 0 0 0 []).done
          ((convertGo alv (l ++ t :: r).length l 0 0 0 []).errors ++ [missingMsg t])
          l.length (Or.inr hsp)
        omega
    · split at hsp <;> simp at hsp

/-- C8 witness: a one-task batch with a missing input file records the error
and neither spawns nor creates a progress file. -/
theorem C8_witness :
    missingMsg (⟨"gone.wav".data, false, true, none, [], 0, []⟩ : TaskEnv) ∈
      (convert_files (fun _ => true)
        [⟨"gone.wav".data, false, true, none, [], 0, []⟩]).2.errors ∧
    Ev.spawn 0 ∉ (convert_files (fun _ => true)
      [⟨"gone.wav".data, false, true, none, [], 0, []⟩]).1 ∧
    Ev.mkProg 0 ∉ (convert_files (fun _ => true)
      [⟨"gone.wav".data, false, true, none, [], 0, []⟩]).1 :=
  (C8_missing_input (fun _ => true) [] []
    ⟨"gone.wav".data, false, true, none, [], 0, []⟩ rfl
    (by with_unfolding_all decide)).2
